import Mathlib

/-!
# Verification of the dependency-driven test orchestration engine

A shallow embedding, in Lean 4, of the core components of the KAT-RBC test
orchestration engine (`src/core/...`): the constraint combiner, the dynamic
invariant miner, the ODG builder, the operation sequencer, the test executor's
environment handling, and the experience-reinforcement template store.

Conventions of the embedding:
* Python strings are Lean `String`s; scans that Python performs with `re` are
  implemented directly over `List Char` (the regexes involved use only ASCII
  character classes; `\d` and `\s` are modelled by their ASCII parts, and
  `str.split` by an explicit character-splitting function).
* Python's `uuid.uuid4()` streams of fresh identifiers are modelled by an
  indexed supply `gen : Nat → String`; the n-th identifier created during a
  run is `gen n`.  Injectivity of the supply models the freshness of UUIDs.
* Python `set`s are modelled as duplicate-free lists (`listInsert` /
  `listUnion`); only membership in these sets is ever observed by the code.
* Bounded scans that Python writes as recursion over shrinking data are given
  an explicit structural fuel argument when that keeps them kernel-computable;
  in each case the chosen initial fuel provably dominates the recursion depth.
-/

/-! ## Data model (schemas/constraint.py, schemas/dependency.py, schemas/common.py) -/

inductive HTTPMethod where
  | GET | POST | PUT | PATCH | DELETE | HEAD | OPTIONS
deriving DecidableEq

def HTTPMethod.value : HTTPMethod → String
  | .GET => "GET"
  | .POST => "POST"
  | .PUT => "PUT"
  | .PATCH => "PATCH"
  | .DELETE => "DELETE"
  | .HEAD => "HEAD"
  | .OPTIONS => "OPTIONS"

inductive ConstraintSource where
  | request_response | response_property | dynamic
deriving DecidableEq

structure StaticConstraint where
  id : String
  source : ConstraintSource
  endpoint : String
  method : HTTPMethod
  expression : String
  details : Option String
deriving DecidableEq

structure DynamicInvariant where
  id : String
  /-- the Python field `variables` (that name is reserved in Lean) -/
  variables_ : List String
  expression : String
deriving DecidableEq

structure UnifiedConstraint where
  id : String
  expression : String
  originating_ids : List String
deriving DecidableEq

/-! ## Character-level scans used by the combiner (core/mining/combiner.py)

`_constraints_overlap` uses `re.findall(r"response\.([a-zA-Z0-9_\.]+)", e)` and
`_select_stricter_constraint` uses `re.search(r"([<>]=?)\s*(\d+)", e)`.  Both
are modelled as direct scans over the character list.  -/

def isPropChar (c : Char) : Bool :=
  c.isAlpha || c.isDigit || c = '_' || c = '.'

/-- One attempt of matching `response\.([a-zA-Z0-9_\.]+)` at the head of `cs`:
returns the captured group and the remainder after the match. -/
def matchResponseProp (cs : List Char) : Option (String × List Char) :=
  if cs.take 9 = "response.".toList then
    let after := cs.drop 9
    let grp := after.takeWhile isPropChar
    if grp = [] then none
    else some (String.mk grp, after.dropWhile isPropChar)
  else none

/-- `re.findall(r"response\.([a-zA-Z0-9_\.]+)", ·)`: scan left to right,
non-overlapping matches; on failure at a position, advance one character.
The fuel argument (initialised to the string length) dominates the number of
scan steps, since every step consumes at least one character. -/
def findRespPropsAux : Nat → List Char → List String
  | 0, _ => []
  | _, [] => []
  | fuel + 1, c :: rest =>
    match matchResponseProp (c :: rest) with
    | some (grp, rest') => grp :: findRespPropsAux fuel rest'
    | none => findRespPropsAux fuel rest

def findResponseProps (cs : List Char) : List String :=
  findRespPropsAux cs.length cs

/-- `ConstraintCombiner._constraints_overlap`: do the two expressions reference
a common `response.<dotted-path>` property? -/
def constraintsOverlap (e1 e2 : String) : Bool :=
  let props1 := findResponseProps e1.toList
  let props2 := findResponseProps e2.toList
  props1.any (fun p1 => props2.any (fun p2 => p1 = p2))

/-- The four shapes the group `([<>]=?)` can capture. -/
inductive IneqOp where
  | lt | le | gt | ge
deriving DecidableEq

/-- `">" in op` on the captured operator string. -/
def IneqOp.hasGt : IneqOp → Bool
  | .gt => true
  | .ge => true
  | _ => false

/-- `"<" in op` on the captured operator string. -/
def IneqOp.hasLt : IneqOp → Bool
  | .lt => true
  | .le => true
  | _ => false

/-- The characters matched by `\s` (ASCII part). -/
def isPyWhitespace (c : Char) : Bool :=
  c = ' ' || c = '\t' || c = '\n' || c = '\r' ||
  c = Char.ofNat 11 || c = Char.ofNat 12

/-- `int(·)` on the digit group (digits are modelled as ASCII decimals). -/
def digitsToNat (ds : List Char) : Nat :=
  ds.foldl (fun n c => n * 10 + (c.toNat - '0'.toNat)) 0

/-- `re.search(r"([<>]=?)\s*(\d+)", ·)`: first position where a relational
operator is followed (after optional whitespace) by at least one digit.
The `=?` needs no backtracking: if `=` follows the bracket and the digit scan
then fails, retrying without the `=` fails as well (`=` is neither whitespace
nor a digit). -/
def searchIneq : List Char → Option (IneqOp × Nat)
  | [] => none
  | c :: rest =>
    if c = '<' || c = '>' then
      let opRest : IneqOp × List Char :=
        match rest with
        | '=' :: r => (if c = '<' then .le else .ge, r)
        | _ => (if c = '<' then .lt else .gt, rest)
      let digits := (opRest.2.dropWhile isPyWhitespace).takeWhile Char.isDigit
      if digits = [] then searchIneq rest
      else some (opRest.1, digitsToNat digits)
    else searchIneq rest

/-- `ConstraintCombiner._select_stricter_constraint`. -/
def selectStricter (e1 e2 : String) : String :=
  match searchIneq e1.toList, searchIneq e2.toList with
  | some (op1, v1), some (op2, v2) =>
    if op1.hasGt && op2.hasGt then (if v1 > v2 then e1 else e2)
    else if op1.hasLt && op2.hasLt then (if v1 < v2 then e1 else e2)
    else e1
  | _, _ => e1

/-! ## ConstraintCombiner (core/mining/combiner.py) -/

/-- `ConstraintCombiner._merge_constraints`. -/
def mergeConstraints (u : UnifiedConstraint) (inv : DynamicInvariant) :
    UnifiedConstraint :=
  let stricter := selectStricter u.expression inv.expression
  if stricter = u.expression then u
  else { id := u.id, expression := stricter,
         originating_ids := u.originating_ids ++ [inv.id] }

/-- `ConstraintCombiner._find_matching_constraints`. -/
def findMatchingConstraints (inv : DynamicInvariant)
    (ucs : List UnifiedConstraint) : List UnifiedConstraint :=
  ucs.filter (fun u => constraintsOverlap u.expression inv.expression)

/-- `unified_constraints[unified_constraints.index(match)] = merged`: replace
the first element equal to `target` (Python `list.index` plus assignment; the
code never calls it with an absent value, in which case the model is the
identity). -/
def updateFirstEq (ucs : List UnifiedConstraint)
    (target merged : UnifiedConstraint) : List UnifiedConstraint :=
  match ucs with
  | [] => []
  | u :: rest =>
    if u = target then merged :: rest
    else u :: updateFirstEq rest target merged

/-- The inner `for match in matching` loop of `combine_constraints`
(`merged` is always truthy, so `if merged and merged != match` is
`merged ≠ match`). -/
def processMatches (matching : List UnifiedConstraint) (inv : DynamicInvariant)
    (ucs : List UnifiedConstraint) : List UnifiedConstraint :=
  matching.foldl
    (fun acc m =>
      let merged := mergeConstraints m inv
      if merged ≠ m then updateFirstEq acc m merged else acc)
    ucs

/-- The net per-element effect of the inner loop of `combine_constraints` on
one unified constraint, when all unified ids are distinct (which the uuid
stream guarantees): a matching constraint is replaced in place by its merge
when the merge changes it, every other constraint is left alone.
`processMatches` is proved equal to mapping this function. -/
def combineMapStep (inv : DynamicInvariant) (u : UnifiedConstraint) :
    UnifiedConstraint :=
  if constraintsOverlap u.expression inv.expression then
    (if mergeConstraints u inv = u then u else mergeConstraints u inv)
  else u

/-- State of `combine_constraints`: the unified list plus the index of the next
fresh id drawn from the supply. -/
structure CombineState where
  constraints : List UnifiedConstraint
  counter : Nat

/-- Processing of one dynamic invariant inside `combine_constraints`. -/
def combineStep (gen : Nat → String) (st : CombineState)
    (inv : DynamicInvariant) : CombineState :=
  let matching := findMatchingConstraints inv st.constraints
  if matching ≠ [] then
    { st with constraints := processMatches matching inv st.constraints }
  else
    { constraints :=
        st.constraints ++
          [{ id := gen st.counter, expression := inv.expression,
             originating_ids := [inv.id] }],
      counter := st.counter + 1 }

/-- The seeding loop of `combine_constraints`: every static constraint
becomes one unified constraint with a fresh id and itself as sole
provenance. -/
def staticSeed (gen : Nat → String) (st : CombineState)
    (c : StaticConstraint) : CombineState :=
  { constraints :=
      st.constraints ++
        [{ id := gen st.counter, expression := c.expression,
           originating_ids := [c.id] }],
    counter := st.counter + 1 }

/-- `ConstraintCombiner.combine_constraints` with the uuid stream `gen`. -/
def combineConstraints (gen : Nat → String)
    (staticConstraints : List StaticConstraint)
    (dynamicInvariants : List DynamicInvariant) : List UnifiedConstraint :=
  (dynamicInvariants.foldl (combineStep gen)
    (staticConstraints.foldl (staticSeed gen) ⟨[], 0⟩)).constraints

/-- (Proof device.)  The distinct-unified-ids invariant the uuid stream
guarantees: ids are pairwise different and all drawn from the supply below
the counter. -/
def IdsSpec (gen : Nat → String) (st : CombineState) : Prop :=
  (st.constraints.map (fun x => x.id)).Nodup ∧
    ∀ x ∈ st.constraints.map (fun x => x.id), ∃ j, j < st.counter ∧ x = gen j

/-- The observable content of a unified constraint: its expression together
with its provenance list (generated ids excluded). -/
def ucProj (u : UnifiedConstraint) : String × List String :=
  (u.expression, u.originating_ids)

/-! ### Satisfaction semantics for the single-relational-operator expressions
the comparator handles (used to state claims C3). -/

/-- Satisfaction of the inequality parsed out of an expression, at an integer
value of the referenced property.  Expressions the comparator cannot parse
impose no constraint. -/
def IneqOp.satB : IneqOp → Nat → Int → Bool
  | .gt, n, v => (n : Int) < v
  | .ge, n, v => (n : Int) ≤ v
  | .lt, n, v => v < (n : Int)
  | .le, n, v => v ≤ (n : Int)

/-- Non-strict relaxation of the parsed inequality (`>` weakened to `>=`,
`<` to `<=`). -/
def IneqOp.relaxB : IneqOp → Nat → Int → Bool
  | .gt, n, v => (n : Int) ≤ v
  | .ge, n, v => (n : Int) ≤ v
  | .lt, n, v => v ≤ (n : Int)
  | .le, n, v => v ≤ (n : Int)

def exprSat (e : String) (v : Int) : Bool :=
  match searchIneq e.toList with
  | some (op, n) => op.satB n v
  | none => true

def exprRelaxSat (e : String) (v : Int) : Bool :=
  match searchIneq e.toList with
  | some (op, n) => op.relaxB n v
  | none => true

/-- (Proof device.)  A unified constraint subsumes, up to non-strict
relaxation of the parsed bound, every input constraint or invariant whose id
it carries. -/
def RelaxSubsumes (statics : List StaticConstraint)
    (dynamics : List DynamicInvariant) (u : UnifiedConstraint) : Prop :=
  ∀ v : Int, exprRelaxSat u.expression v = true →
    (∀ s ∈ statics, s.id ∈ u.originating_ids →
      exprRelaxSat s.expression v = true) ∧
    (∀ d ∈ dynamics, d.id ∈ u.originating_ids →
      exprRelaxSat d.expression v = true)

/-! ## Operation Dependency Graph and sequencer
(schemas/dependency.py, core/dependency/sequencer.py) -/

structure ODGEdge where
  src_operation_id : String
  dst_operation_id : String
  reason : String
deriving DecidableEq

structure OperationDependencyGraph where
  nodes : List String
  edges : List ODGEdge
deriving DecidableEq

/-- Python dict / defaultdict lookup on an association list
(keys are unique in every dict the code builds). -/
def adjFind (g : List (String × List String)) (k : String) :
    Option (List String) :=
  (g.find? (fun p => p.1 = k)).map (fun p => p.2)

/-- `graph.get(start, [])`. -/
def adjGet (g : List (String × List String)) (k : String) : List String :=
  (adjFind g k).getD []

/-- `graph[src] = value` (every entry under the key is rewritten; keys are
unique so exactly one entry changes). -/
def adjUpdate (g : List (String × List String)) (k : String)
    (v : List String) : List (String × List String) :=
  g.map (fun p => if p.1 = k then (p.1, v) else p)

/-- `{node: [] for node in odg.nodes}`. -/
def emptyAdj (nodes : List String) : List (String × List String) :=
  nodes.foldl
    (fun m n => if m.any (fun p => p.1 = n) then m else m ++ [(n, [])]) []

/-- One edge of `OperationSequencer._build_adjacency_list`:
`if src in graph and dst not in graph[src]: graph[src].append(dst)`.
Note that only the *source* of an edge is required to be a node; the
destination is appended unchecked. -/
def adjStep (g : List (String × List String)) (e : ODGEdge) :
    List (String × List String) :=
  match adjFind g e.src_operation_id with
  | some lst =>
    if e.dst_operation_id ∈ lst then g
    else adjUpdate g e.src_operation_id (lst ++ [e.dst_operation_id])
  | none => g

/-- `OperationSequencer._build_adjacency_list`. -/
def buildAdjacencyList (odg : OperationDependencyGraph) :
    List (String × List String) :=
  odg.edges.foldl adjStep (emptyAdj odg.nodes)

/-- `OperationSequencer._find_start_nodes`. -/
def findStartNodes (odg : OperationDependencyGraph) : List String :=
  let destNodes := odg.edges.map (fun e => e.dst_operation_id)
  odg.nodes.filter (fun n => ¬ n ∈ destNodes)

/-- `OperationSequencer._dfs_sequences`.  The current node is appended to the
path and to the branch-local visited set first; the path is recorded once its
length reaches 2; neighbours outside the visited set are explored while the
path is shorter than `maxLength`.  Terminates because the path grows towards
`maxLength` on every recursive call. -/
def dfsSequences (graph : List (String × List String)) (maxLength : Nat)
    (start : String) (visited : List String) (currentPath : List String) :
    List (List String) :=
  if h : (currentPath ++ [start]).length < maxLength then
    (if 2 ≤ (currentPath ++ [start]).length then [currentPath ++ [start]] else []) ++
      ((adjGet graph start).filter (fun nb => ¬ nb ∈ start :: visited)).foldl
        (fun acc nb =>
          acc ++ dfsSequences graph maxLength nb (start :: visited)
            (currentPath ++ [start]))
        []
  else
    (if 2 ≤ (currentPath ++ [start]).length then [currentPath ++ [start]] else [])
termination_by maxLength - currentPath.length
decreasing_by simp only [List.length_append, List.length_cons, List.length_nil] at h ⊢; omega

/-- The `for start_node in start_nodes` loop of `generate_sequences`, with the
truncate-and-break once `max_sequences` is reached. -/
def genLoop (graph : List (String × List String))
    (maxLength maxSequences : Nat) :
    List String → List (List String) → List (List String)
  | [], acc => acc
  | s :: rest, acc =>
    let acc2 := acc ++ dfsSequences graph maxLength s [] []
    if maxSequences ≤ acc2.length then acc2.take maxSequences
    else genLoop graph maxLength maxSequences rest acc2

/-- `OperationSequencer.generate_sequences`, as the list of operation-id lists
(`sequence_lists` after truncation; the final wrapping attaches a fresh
uuid-based `sequence_id` to each list, see `generateSequences`). -/
def generateSequenceLists (odg : OperationDependencyGraph)
    (maxLength maxSequences : Nat) : List (List String) :=
  let starts := findStartNodes odg
  genLoop (buildAdjacencyList odg) maxLength maxSequences
    (if starts = [] then odg.nodes else starts) []

structure OperationSequence where
  sequence_id : String
  operations : List String
deriving DecidableEq

/-- `generate_sequences` with the uuid stream `gen` for the sequence ids. -/
def generateSequences (gen : Nat → String) (odg : OperationDependencyGraph)
    (maxLength maxSequences : Nat) : List OperationSequence :=
  (generateSequenceLists odg maxLength maxSequences).enum.map
    (fun p => { sequence_id := gen p.1, operations := p.2 })

/-! ### Fuel-indexed variant of the DFS, used to express termination (C7):
`none` signals fuel exhaustion; with fuel `maxLength + 1` the scan provably
never exhausts it, on every graph (cyclic ones included). -/

/-- Append under `Option`: `none` (fuel exhaustion) is absorbing. -/
def optAppend {α : Type} (acc s : Option (List α)) : Option (List α) :=
  match acc, s with
  | some seqs, some s' => some (seqs ++ s')
  | _, _ => none

def dfsSequencesF (graph : List (String × List String)) :
    Nat → Nat → String → List String → List String →
    Option (List (List String))
  | 0, _, _, _, _ => none
  | fuel + 1, maxLength, start, visited, currentPath =>
    if (currentPath ++ [start]).length < maxLength then
      ((adjGet graph start).filter (fun nb => ¬ nb ∈ start :: visited)).foldl
        (fun acc nb =>
          optAppend acc
            (dfsSequencesF graph fuel maxLength nb (start :: visited)
              (currentPath ++ [start])))
        (some (if 2 ≤ (currentPath ++ [start]).length
               then [currentPath ++ [start]] else []))
    else
      some (if 2 ≤ (currentPath ++ [start]).length
            then [currentPath ++ [start]] else [])

def genLoopF (graph : List (String × List String))
    (fuel maxLength maxSequences : Nat) :
    List String → List (List String) → Option (List (List String))
  | [], acc => some acc
  | s :: rest, acc =>
    match dfsSequencesF graph fuel maxLength s [] [] with
    | none => none
    | some seqs =>
      let acc2 := acc ++ seqs
      if maxSequences ≤ acc2.length then some (acc2.take maxSequences)
      else genLoopF graph fuel maxLength maxSequences rest acc2

def generateSequenceListsF (fuel : Nat) (odg : OperationDependencyGraph)
    (maxLength maxSequences : Nat) : Option (List (List String)) :=
  let starts := findStartNodes odg
  genLoopF (buildAdjacencyList odg) fuel maxLength maxSequences
    (if starts = [] then odg.nodes else starts) []

/-! ## ODG builder (core/dependency/odg_builder.py)

`build_graph` is modelled with no LLM client (`llm_client=None`), the
configuration in which only the heuristic edges are produced; the
operation-schema and schema-schema dependency lists are separate outputs that
do not feed into the returned graph. -/

structure Operation where
  operation_id : String
  path : String
  method : HTTPMethod
deriving DecidableEq

structure ParsedSpec where
  operations : List Operation
deriving DecidableEq

/-- `str.split(sep)` for a one-character separator, Python semantics
(`"".split("/") == [""]`, separators at the ends produce empty pieces). -/
def splitOnChar (sep : Char) : List Char → List (List Char)
  | [] => [[]]
  | c :: rest =>
    let r := splitOnChar sep rest
    if c = sep then [] :: r
    else
      match r with
      | h :: t => (c :: h) :: t
      | [] => [[c]]

def pySplit (s : String) (sep : Char) : List String :=
  (splitOnChar sep s.toList).map (fun l => String.mk l)

/-- `str.rstrip("s")`: remove every trailing `'s'`. -/
def rstripS (s : String) : String :=
  String.mk (s.toList.reverse.dropWhile (fun c => c = 's')).reverse

/-- The resource a path is grouped under: `path.split("/")[1].rstrip("s")`
when the split has more than one part and the stripped segment is nonempty. -/
def resourceOf (path : String) : Option String :=
  match pySplit path '/' with
  | _ :: p1 :: _ =>
    let r := rstripS p1
    if r = "" then none else some r
  | _ => none

/-- `op_dict[key] = value` on an association list (overwrite or append). -/
def dictInsertOp (m : List (String × Operation)) (k : String) (v : Operation) :
    List (String × Operation) :=
  if m.any (fun p => p.1 = k) then
    m.map (fun p => if p.1 = k then (p.1, v) else p)
  else m ++ [(k, v)]

/-- `{op.operation_id: op for op in operations}`. -/
def opDict (operations : List Operation) : List (String × Operation) :=
  operations.foldl (fun m op => dictInsertOp m op.operation_id op) []

def dictFindOp (m : List (String × Operation)) (k : String) : Option Operation :=
  (m.find? (fun p => p.1 = k)).map (fun p => p.2)

/-- `resources[resource].append(op_id)` with defaulting, on an association
list keyed by resource. -/
def multiAdd (m : List (String × List String)) (k : String) (v : String) :
    List (String × List String) :=
  if m.any (fun p => p.1 = k) then
    m.map (fun p => if p.1 = k then (p.1, p.2 ++ [v]) else p)
  else m ++ [(k, [v])]

/-- One step of the resource-grouping loop of `_heuristic_analysis`:
operations whose path yields no resource are skipped. -/
def resStep (m : List (String × List String)) (kv : String × Operation) :
    List (String × List String) :=
  match resourceOf kv.2.path with
  | some r => multiAdd m r kv.1
  | none => m

/-- The resource-grouping loop of `_heuristic_analysis`. -/
def buildResources (items : List (String × Operation)) :
    List (String × List String) :=
  items.foldl resStep []

def isGetId (items : List (String × Operation)) (i : String) : Bool :=
  match dictFindOp items i with
  | some op => op.method.value = "GET"
  | none => false

def isWriteId (items : List (String × Operation)) (i : String) : Bool :=
  match dictFindOp items i with
  | some op =>
    op.method.value = "POST" || op.method.value = "PUT" ||
      op.method.value = "PATCH"
  | none => false

def isPostId (items : List (String × Operation)) (i : String) : Bool :=
  match dictFindOp items i with
  | some op => op.method.value = "POST"
  | none => false

/-- The edges `_heuristic_analysis` emits for one resource group. -/
def edgesForResource (items : List (String × Operation))
    (r : String) (ops : List String) : List ODGEdge :=
  let getOps := ops.filter (isGetId items)
  let writeOps := ops.filter (isWriteId items)
  let postOps := ops.filter (isPostId items)
  (getOps.flatMap (fun g =>
     writeOps.map (fun w =>
       { src_operation_id := g, dst_operation_id := w,
         reason := "Reading " ++ r ++ " data before modifying " ++ r }))) ++
  (postOps.flatMap (fun p =>
     getOps.map (fun g =>
       { src_operation_id := p, dst_operation_id := g,
         reason := "Reading " ++ r ++ " data after creation" })))

/-- `ODGBuilder._heuristic_analysis` (`op_dict` is bound once in the source;
it is written out here). -/
def heuristicAnalysis (operations : List Operation) : List ODGEdge :=
  (buildResources (opDict operations)).foldl
    (fun es rl => es ++ edgesForResource (opDict operations) rl.1 rl.2) []

/-- The graph component of `ODGBuilder.build_graph` (no LLM client, so the
edge list is exactly the heuristic one). -/
def buildGraphODG (spec : ParsedSpec) : OperationDependencyGraph :=
  { nodes := spec.operations.map (fun op => op.operation_id),
    edges := heuristicAnalysis spec.operations }

/-! ## Dynamic invariant miner (core/mining/dynamic_miner.py) -/

/-- Parsed JSON bodies.  Numbers are modelled over `Int` (the mined
comparisons only ever test sign); Python `bool` is a separate constructor but
counts as numeric, as `isinstance(·, (int, float))` does. -/
inductive JSON where
  | null
  | bool (b : Bool)
  | num (n : Int)
  | str (s : String)
  | arr (items : List JSON)
  | obj (fields : List (String × JSON))

structure HTTPResponse where
  /-- `log.url.path` of the recorded `HttpUrl`. -/
  urlPath : String
  method : HTTPMethod
  body : JSON

def listInsert (l : List String) (x : String) : List String :=
  if x ∈ l then l else l ++ [x]

def listUnion (l1 l2 : List String) : List String :=
  l2.foldl listInsert l1

mutual
/-- `DynamicInvariantMiner._flatten_json`: dict values that are dicts or lists
are recursed into under the extended prefix, scalar leaves contribute their
dotted path; a nonempty list is represented by its first element's structure
(same prefix), or by a `<prefix>[]` leaf when that element is scalar. -/
def flattenJson : JSON → String → List String
  | .obj fields, pref => flattenFields fields pref []
  | .arr items, pref => flattenArr items pref
  | _, _ => []
def flattenArr : List JSON → String → List String
  | [], _ => []
  | x :: _, pref =>
    match x with
    | .obj _ => flattenJson x pref
    | .arr _ => flattenJson x pref
    | _ => [pref ++ "[]"]
def flattenFields : List (String × JSON) → String → List String → List String
  | [], _, acc => acc
  | (k, v) :: rest, pref, acc =>
    let np := if pref = "" then k else pref ++ "." ++ k
    match v with
    | .obj _ => flattenFields rest pref (listUnion acc (flattenJson v np))
    | .arr _ => flattenFields rest pref (listUnion acc (flattenJson v np))
    | _ => flattenFields rest pref (listInsert acc np)
end

def lookupField (fields : List (String × JSON)) (k : String) : Option JSON :=
  (fields.find? (fun p => p.1 = k)).map (fun p => p.2)

/-- `DynamicInvariantMiner._get_nested_value` (after `split(".")`): descend
through dicts only; anything else is `None`. -/
def getNestedAux : List String → JSON → Option JSON
  | [], j => some j
  | p :: rest, .obj fields =>
    match lookupField fields p with
    | some v => getNestedAux rest v
    | none => none
  | _ :: _, _ => none

def getNestedValue (j : JSON) (path : String) : Option JSON :=
  getNestedAux (pySplit path '.') j

/-- `"/".join(parts)`. -/
def joinSlash : List String → String
  | [] => ""
  | [s] => s
  | s :: rest => s ++ "/" ++ joinSlash rest

/-- The grouping key of `_group_logs`:
`"/".join([""] + url_parts[1:3]) + ":" + method.value`. -/
def groupKey (log : HTTPResponse) : String :=
  let urlParts := pySplit log.urlPath '/'
  let endpoint := joinSlash ("" :: ((urlParts.drop 1).take 2))
  endpoint ++ ":" ++ log.method.value

def multiAddLog (m : List (String × List HTTPResponse)) (k : String)
    (v : HTTPResponse) : List (String × List HTTPResponse) :=
  if m.any (fun p => p.1 = k) then
    m.map (fun p => if p.1 = k then (p.1, p.2 ++ [v]) else p)
  else m ++ [(k, [v])]

/-- `DynamicInvariantMiner._group_logs` (a `defaultdict(list)` keyed by the
endpoint-method string, in insertion order). -/
def groupLogs (logs : List HTTPResponse) : List (String × List HTTPResponse) :=
  logs.foldl (fun m log => multiAddLog m (groupKey log) log) []

/-- `DynamicInvariantMiner._extract_response_properties`. -/
def extractResponseProperties (logs : List HTTPResponse) : List String :=
  logs.foldl (fun props log => listUnion props (flattenJson log.body "")) []

/-- `isinstance(value, (int, float))` on an observed value (`None` when the
path is absent); Python `bool` is an `int`. -/
def isNumericValue : Option JSON → Bool
  | some (.num _) => true
  | some (.bool _) => true
  | _ => false

def isArrayValue : Option JSON → Bool
  | some (.arr _) => true
  | _ => false

/-- `DynamicInvariantMiner._identify_numeric_properties` (as the set of
surviving properties). -/
def identifyNumericProperties (logs : List HTTPResponse)
    (properties : List String) : List String :=
  properties.filter
    (fun p => logs.all (fun log => isNumericValue (getNestedValue log.body p)))

/-- `DynamicInvariantMiner._identify_array_properties`. -/
def identifyArrayProperties (logs : List HTTPResponse)
    (properties : List String) : List String :=
  properties.foldl
    (fun acc p =>
      if logs.all (fun log => isArrayValue (getNestedValue log.body p)) then
        listInsert acc p
      else acc)
    []

/-- `v >= 0` on an observed numeric value (`True >= 0` and `False >= 0` both
hold in Python). -/
def jsonNonneg : JSON → Bool
  | .num n => 0 ≤ n
  | .bool _ => true
  | _ => false

/-- `_check_range_invariants`, as (variables, expression) content; the fresh
uuid ids are attached afterwards (see `discoverInvariants`). -/
def checkRangeContents (logs : List HTTPResponse) (p : String) :
    List (List String × String) :=
  let values := logs.filterMap (fun log => getNestedValue log.body p)
  if values.isEmpty then []
  else if values.all jsonNonneg then
    [(["response." ++ p], "response." ++ p ++ " >= 0")]
  else []

/-- `_check_size_invariants`: unconditionally one trivial size invariant. -/
def checkSizeContents (p : String) : List (List String × String) :=
  [(["size(response." ++ p ++ ")"], "size(response." ++ p ++ ") >= 0")]

/-- `DynamicInvariantMiner._discover_endpoint_invariants`, as content. -/
def endpointInvariantContents (logs : List HTTPResponse) :
    List (List String × String) :=
  if logs.isEmpty then []
  else
    let properties := extractResponseProperties logs
    let numericProps := identifyNumericProperties logs properties
    let rangeInvs :=
      numericProps.foldl (fun acc p => acc ++ checkRangeContents logs p) []
    let arrayProps := identifyArrayProperties logs properties
    let sizeInvs :=
      arrayProps.foldl (fun acc p => acc ++ checkSizeContents p) []
    rangeInvs ++ sizeInvs

def discoverInvariantContents (logs : List HTTPResponse) :
    List (List String × String) :=
  if logs.isEmpty then []
  else
    (groupLogs logs).foldl
      (fun acc g => acc ++ endpointInvariantContents g.2) []

/-- `DynamicInvariantMiner.discover_invariants` with the uuid stream `gen`:
the i-th invariant created receives the i-th fresh id. -/
def discoverInvariants (gen : Nat → String) (logs : List HTTPResponse) :
    List DynamicInvariant :=
  (discoverInvariantContents logs).enum.map
    (fun p => { id := gen p.1, variables_ := p.2.1, expression := p.2.2 })

/-! ## Test executor environment handling (core/execution/test_executor.py)

Only the process-environment effect of `execute_tests` is modelled: the child
process spawns (`subprocess.run(..., env=dict(os.environ))`) receive a *copy*
of the environment and cannot mutate the parent's, so each run is an oracle
`VerifiedTestCode → Env → List TestOutcome` reading the environment. -/

inductive TestStatus where
  | matched | mismatched | unknown
deriving DecidableEq

structure TestOutcome where
  test_name : String
  status : TestStatus
  expected : Option String
  actual : Option String
  details : Option String
deriving DecidableEq

structure VerifiedTestCode where
  operation_sequence_id : String
  language : String
  content : String
deriving DecidableEq

structure TestResultsM where
  suite_id : String
  outcomes : List TestOutcome
deriving DecidableEq

/-- The process environment, as an association list with unique keys. -/
abbrev Env := List (String × String)

/-- `os.environ[k] = v`. -/
def envSet (env : Env) (k v : String) : Env :=
  if env.any (fun p => p.1 = k) then
    env.map (fun p => if p.1 = k then (p.1, v) else p)
  else env ++ [(k, v)]

/-- `os.environ.get(k)`. -/
def envGet (env : Env) (k : String) : Option String :=
  (env.find? (fun p => p.1 = k)).map (fun p => p.2)

/-- `str.lower()` (ASCII). -/
def charLower (c : Char) : Char :=
  if 'A' ≤ c && c ≤ 'Z' then Char.ofNat (c.toNat + 32) else c

def strLower (s : String) : String :=
  String.mk (s.toList.map charLower)

/-- `TestExecutor.execute_tests`: sets `API_BASE_URL` process-globally, then
runs each script with the resulting environment (python and groovy scripts via
their respective runners, any other language skipped with a log line), and
returns the collected outcomes.  The environment is returned as the state
left behind in the caller's process: nothing ever restores the old value. -/
def executeTests
    (runPython runGroovy : VerifiedTestCode → Env → List TestOutcome)
    (suiteId : String) (verifiedTests : List VerifiedTestCode)
    (apiBaseUrl : String) (env : Env) : TestResultsM × Env :=
  let env1 := envSet env "API_BASE_URL" apiBaseUrl
  let outcomes :=
    verifiedTests.foldl
      (fun acc test =>
        if strLower test.language = "python" then acc ++ runPython test env1
        else if strLower test.language = "groovy" then
          acc ++ runGroovy test env1
        else acc)
      []
  ({ suite_id := suiteId, outcomes := outcomes }, env1)

/-! ## Experience reinforcement template store
(core/reinforcement/experience_reinforcement.py)

The `prompt_templates` SQLite table (`name TEXT UNIQUE, template_text,
version, success_rate, usage_count`) is modelled as a list of rows; the
`REAL` column `success_rate` (only ever written as `0.0` here) is left out of
the model as floating point.  An `INSERT` hitting the `UNIQUE(name)`
constraint raises `sqlite3.IntegrityError`, which `add_prompt_template`
catches, rolls back, and reports as `False`. -/

structure PromptTemplate where
  name : String
  template_text : String
  version : String
deriving DecidableEq

structure PromptRow where
  name : String
  template_text : String
  version : String
  usage_count : Nat
deriving DecidableEq

structure ExperienceDB where
  prompt_templates : List PromptRow
deriving DecidableEq

/-- The attempted `INSERT INTO prompt_templates ... VALUES (name, text,
version, 0.0, 0)`: `none` models the `UNIQUE` violation. -/
def sqliteInsertTemplate (rows : List PromptRow) (r : PromptRow) :
    Option (List PromptRow) :=
  if rows.any (fun row => row.name = r.name) then none
  else some (rows ++ [r])

/-- `ExperienceReinforcement.add_prompt_template`: commit on success, roll
back (leaving the store untouched) and return `False` on a constraint
violation. -/
def addPromptTemplate (db : ExperienceDB) (t : PromptTemplate) :
    Bool × ExperienceDB :=
  match sqliteInsertTemplate db.prompt_templates
      { name := t.name, template_text := t.template_text,
        version := t.version, usage_count := 0 } with
  | some rows => (true, { prompt_templates := rows })
  | none => (false, db)

/-- A concrete injective id supply used to instantiate theorems that are
universally quantified over the uuid stream. -/
def genW (n : Nat) : String :=
  String.mk (List.replicate n 'u')

/-- A second, distinct injective id supply (for the two-run claims). -/
def genV (n : Nat) : String :=
  String.mk (List.replicate n 'v')

/-! ## General helper lemmas -/

theorem genW_injective : Function.Injective genW := by
  intro a b h
  have hlen := congrArg (fun s => s.data.length) h
  simpa [genW] using hlen

theorem mem_foldl_append {α β : Type} (f : β → List α) :
    ∀ (l : List β) (init : List α) (a : α),
      (a ∈ l.foldl (fun acc b => acc ++ f b) init ↔
        a ∈ init ∨ ∃ b ∈ l, a ∈ f b)
  | [], init, a => by simp
  | b :: rest, init, a => by
    rw [List.foldl_cons, mem_foldl_append f rest (init ++ f b) a]
    simp [List.mem_append, or_assoc]

/-! ## Environment of the test executor (C10) -/

theorem envGet_map_update (k v : String) :
    ∀ env : Env, env.any (fun p => p.1 = k) = true →
      envGet (env.map (fun p => if p.1 = k then (p.1, v) else p)) k = some v := by
  intro env
  induction env with
  | nil => intro h; simp at h
  | cons p rest ih =>
    intro h
    by_cases hk : p.1 = k
    · simp [envGet, List.find?_cons, hk]
    · have h' : rest.any (fun p => p.1 = k) = true := by
        simp [hk] at h
        simpa using h
      simpa [envGet, List.find?_cons, hk] using ih h'

theorem envGet_append_new (k v : String) :
    ∀ env : Env, env.any (fun p => p.1 = k) = false →
      envGet (env ++ [(k, v)]) k = some v := by
  intro env
  induction env with
  | nil => simp [envGet, List.find?_cons]
  | cons p rest ih =>
    intro h
    simp only [List.any_cons, Bool.or_eq_false_iff, decide_eq_false_iff_not] at h
    simpa [envGet, List.find?_cons, h.1] using
      ih (by simpa [List.any_eq_true] using h.2)

theorem envGet_envSet (env : Env) (k v : String) :
    envGet (envSet env k v) k = some v := by
  unfold envSet
  by_cases h : env.any (fun p => p.1 = k) = true
  · simpa [h] using envGet_map_update k v env h
  · have h' : env.any (fun p => p.1 = k) = false := Bool.eq_false_iff.mpr h
    simpa [h'] using envGet_append_new k v env h'

/-- C10: `TestExecutor.execute_tests` sets the process-global environment
variable `API_BASE_URL` to the supplied base URL before running any script
and never restores the previous value: whatever the scripts do and however
many run, after the call the caller's environment still maps `API_BASE_URL`
to the supplied value. -/
theorem executor_env_persists
    (runPython runGroovy : VerifiedTestCode → Env → List TestOutcome)
    (suiteId : String) (verifiedTests : List VerifiedTestCode)
    (apiBaseUrl : String) (env : Env) :
    envGet (executeTests runPython runGroovy suiteId verifiedTests
        apiBaseUrl env).2 "API_BASE_URL" = some apiBaseUrl := by
  unfold executeTests
  exact envGet_envSet env "API_BASE_URL" apiBaseUrl

/-! ## Prompt-template insertion (C9) -/

/-- C9: `ExperienceReinforcement.add_prompt_template` rejects a template whose
name is already stored — it returns `False` and leaves the store untouched —
and accepts a template with a fresh name, returning `True` and appending
exactly that one row. -/
theorem add_prompt_template_spec (db : ExperienceDB) (t : PromptTemplate) :
    ((∃ row ∈ db.prompt_templates, row.name = t.name) →
        addPromptTemplate db t = (false, db)) ∧
      ((∀ row ∈ db.prompt_templates, row.name ≠ t.name) →
        addPromptTemplate db t =
          (true, { prompt_templates := db.prompt_templates ++
              [{ name := t.name, template_text := t.template_text,
                 version := t.version, usage_count := 0 }] })) := by
  constructor
  · intro hdup
    have hany : db.prompt_templates.any (fun row => row.name = t.name) = true := by
      rcases hdup with ⟨row, hrow, hname⟩
      exact List.any_eq_true.mpr ⟨row, hrow, by simpa using hname⟩
    simp [addPromptTemplate, sqliteInsertTemplate, hany]
  · intro hfresh
    have hany : db.prompt_templates.any (fun row => row.name = t.name) = false := by
      rw [Bool.eq_false_iff]
      intro hc
      rcases List.any_eq_true.mp hc with ⟨row, hrow, hname⟩
      exact hfresh row hrow (by simpa using hname)
    simp [addPromptTemplate, sqliteInsertTemplate, hany]

/-- Witness for C9 at a concrete store: inserting a second `"summary"`
template fails and leaves the single-row store unchanged; inserting a
`"fallback"` template succeeds and appends exactly that row. -/
theorem add_prompt_template_spec_witness :
    addPromptTemplate ⟨[⟨"summary", "old text", "1.0.0", 0⟩]⟩
        ⟨"summary", "new text", "2.0.0"⟩ =
      (false, ⟨[⟨"summary", "old text", "1.0.0", 0⟩]⟩) ∧
    addPromptTemplate ⟨[⟨"summary", "old text", "1.0.0", 0⟩]⟩
        ⟨"fallback", "new text", "2.0.0"⟩ =
      (true, ⟨[⟨"summary", "old text", "1.0.0", 0⟩,
               ⟨"fallback", "new text", "2.0.0", 0⟩]⟩) :=
  ⟨(add_prompt_template_spec ⟨[⟨"summary", "old text", "1.0.0", 0⟩]⟩
      ⟨"summary", "new text", "2.0.0"⟩).1 (by decide),
   (add_prompt_template_spec ⟨[⟨"summary", "old text", "1.0.0", 0⟩]⟩
      ⟨"fallback", "new text", "2.0.0"⟩).2 (by decide)⟩

theorem foldl_append_init {α β : Type} (g : β → List α) :
    ∀ (l : List β) (init : List α),
      l.foldl (fun acc b => acc ++ g b) init =
        init ++ l.foldl (fun acc b => acc ++ g b) []
  | [], init => by simp
  | b :: rest, init => by
    rw [List.foldl_cons, List.foldl_cons, foldl_append_init g rest (init ++ g b),
      foldl_append_init g rest ([] ++ g b)]
    simp

/-! ## Termination of the DFS (C7): the fuelled scan never runs out of fuel
`maxLength + 1`, on any graph. -/

theorem foldl_option_append {α β : Type} (F : β → Option (List α))
    (G : β → List α) :
    ∀ (l : List β) (init : List α),
      (∀ b ∈ l, F b = some (G b)) →
      l.foldl (fun acc b => optAppend acc (F b)) (some init) =
        some (l.foldl (fun acc b => acc ++ G b) init)
  | [], init, _ => rfl
  | b :: rest, init, h => by
    rw [List.foldl_cons, List.foldl_cons, h b (by simp)]
    exact foldl_option_append F G rest (init ++ G b)
      (fun b' hb' => h b' (by simp [hb']))

theorem dfsSequencesF_eq (graph : List (String × List String))
    (maxLength : Nat) :
    ∀ (fuel : Nat) (start : String) (visited currentPath : List String),
      maxLength - currentPath.length < fuel →
      dfsSequencesF graph fuel maxLength start visited currentPath =
        some (dfsSequences graph maxLength start visited currentPath) := by
  intro fuel
  induction fuel with
  | zero => intro start visited currentPath h; exact absurd h (Nat.not_lt_zero _)
  | succ n ih =>
    intro start visited currentPath h
    rw [dfsSequencesF, dfsSequences]
    by_cases hlen : (currentPath ++ [start]).length < maxLength
    · rw [if_pos hlen, dif_pos hlen]
      rw [foldl_option_append
          (fun nb => dfsSequencesF graph n maxLength nb (start :: visited)
            (currentPath ++ [start]))
          (fun nb => dfsSequences graph maxLength nb (start :: visited)
            (currentPath ++ [start]))
          _ _
          (fun nb _ => ih nb (start :: visited) (currentPath ++ [start])
            (by
              simp only [List.length_append, List.length_cons,
                List.length_nil] at hlen ⊢
              omega))]
      rw [foldl_append_init]
    · rw [if_neg hlen, dif_neg hlen]

theorem genLoopF_eq (graph : List (String × List String))
    (fuel maxLength maxSequences : Nat) (hf : maxLength < fuel) :
    ∀ (starts : List String) (acc : List (List String)),
      genLoopF graph fuel maxLength maxSequences starts acc =
        some (genLoop graph maxLength maxSequences starts acc) := by
  intro starts
  induction starts with
  | nil => intro acc; rfl
  | cons s rest ih =>
    intro acc
    rw [genLoopF, genLoop,
      dfsSequencesF_eq graph maxLength fuel s [] [] (by simpa using hf)]
    by_cases hcut :
        maxSequences ≤ (acc ++ dfsSequences graph maxLength s [] []).length
    · simp only [hcut, if_pos]
    · simp only [hcut, if_neg, Bool.false_eq_true, not_false_iff]
      exact ih _

/-- C7: `OperationSequencer.generate_sequences` terminates on every finite
Operation Dependency Graph, cyclic ones included: the depth-first scan, run
with an explicit fuel budget of `maxLength + 1` per start node, never
exhausts it (the branch-local path grows towards `maxLength` on every
recursive step), and computes exactly the sequences of the unfuelled model,
for every bound. -/
theorem sequencer_terminates (odg : OperationDependencyGraph)
    (maxLength maxSequences : Nat) :
    generateSequenceListsF (maxLength + 1) odg maxLength maxSequences =
      some (generateSequenceLists odg maxLength maxSequences) := by
  unfold generateSequenceListsF generateSequenceLists
  exact genLoopF_eq (buildAdjacencyList odg) (maxLength + 1) maxLength
    maxSequences (Nat.lt_succ_self _) _ []

/-! ## Soundness of the adjacency list -/

def adjRel (graph : List (String × List String)) (a b : String) : Prop :=
  b ∈ adjGet graph a

theorem adjGet_cons (q : String × List String)
    (g : List (String × List String)) (a : String) :
    adjGet (q :: g) a = if q.1 = a then q.2 else adjGet g a := by
  by_cases h : q.1 = a <;> simp [adjGet, adjFind, List.find?_cons, h]

theorem emptyAdj_mem (nodes : List String) :
    ∀ p ∈ emptyAdj nodes, p.2 = [] ∧ p.1 ∈ nodes := by
  have key : ∀ (ns : List String) (acc : List (String × List String)),
      ∀ p ∈ ns.foldl
        (fun m n => if m.any (fun q => q.1 = n) then m else m ++ [(n, [])])
        acc,
      p ∈ acc ∨ (p.2 = [] ∧ p.1 ∈ ns) := by
    intro ns
    induction ns with
    | nil => intro acc p hp; exact Or.inl hp
    | cons n rest ih =>
      intro acc p hp
      rw [List.foldl_cons] at hp
      rcases ih _ p hp with h | h
      · by_cases hc : acc.any (fun q => q.1 = n)
        · rw [if_pos hc] at h
          exact Or.inl h
        · rw [if_neg hc] at h
          rcases List.mem_append.mp h with h' | h'
          · exact Or.inl h'
          · refine Or.inr ⟨?_, ?_⟩ <;> simp_all
      · exact Or.inr ⟨h.1, by simp [h.2]⟩
  intro p hp
  rcases key nodes [] p hp with h | h
  · simp at h
  · exact h

theorem adjFind_eq_some {g : List (String × List String)} {k : String}
    {v : List String} (h : adjFind g k = some v) :
    ∃ p ∈ g, p.1 = k ∧ p.2 = v := by
  unfold adjFind at h
  rcases Option.map_eq_some'.mp h with ⟨p, hfind, hv⟩
  exact ⟨p, List.mem_of_find?_eq_some hfind,
    by simpa using List.find?_some hfind, hv⟩

theorem adjGet_eq_of_adjFind {g : List (String × List String)} {k : String}
    {v : List String} (h : adjFind g k = some v) : adjGet g k = v := by
  simp [adjGet, h]

theorem adjGet_adjUpdate {b : String} (k : String) (v : List String) :
    ∀ (g : List (String × List String)) (a : String),
      b ∈ adjGet (adjUpdate g k v) a → (a = k ∧ b ∈ v) ∨ b ∈ adjGet g a := by
  intro g
  induction g with
  | nil => intro a h; simp [adjUpdate, adjGet, adjFind] at h
  | cons p rest ih =>
    intro a h
    by_cases hk : p.1 = k
    · rw [adjUpdate, List.map_cons, if_pos hk] at h
      by_cases ha : p.1 = a
      · rw [adjGet_cons] at h
        simp only [ha, if_pos] at h
        exact Or.inl ⟨by rw [← ha, hk], h⟩
      · rw [adjGet_cons] at h
        simp only [ha, if_neg, if_false] at h
        rcases ih a (by simpa [adjUpdate] using h) with h' | h'
        · exact Or.inl h'
        · rw [adjGet_cons, if_neg ha]
          exact Or.inr h'
    · rw [adjUpdate, List.map_cons, if_neg hk] at h
      by_cases ha : p.1 = a
      · rw [adjGet_cons] at h
        simp only [ha, if_pos] at h
        rw [adjGet_cons, if_pos ha]
        exact Or.inr h
      · rw [adjGet_cons] at h
        simp only [ha, if_neg, if_false] at h
        rcases ih a (by simpa [adjUpdate] using h) with h' | h'
        · exact Or.inl h'
        · rw [adjGet_cons, if_neg ha]
          exact Or.inr h'

theorem adjUpdate_keys {g : List (String × List String)} {k : String}
    {v : List String} {p : String × List String}
    (hp : p ∈ adjUpdate g k v) : ∃ q ∈ g, p.1 = q.1 := by
  unfold adjUpdate at hp
  rcases List.mem_map.mp hp with ⟨q, hq, hqe⟩
  refine ⟨q, hq, ?_⟩
  by_cases h : q.1 = k
  · rw [if_pos h] at hqe
    rw [← hqe]
  · rw [if_neg h] at hqe
    rw [← hqe]

theorem adjStep_keys {g : List (String × List String)} {e : ODGEdge}
    {p : String × List String} (hp : p ∈ adjStep g e) : ∃ q ∈ g, p.1 = q.1 := by
  unfold adjStep at hp
  rcases hfind : adjFind g e.src_operation_id with _ | lst
  · rw [hfind] at hp
    exact ⟨p, hp, rfl⟩
  · rw [hfind] at hp
    have hp2 : p ∈ (if e.dst_operation_id ∈ lst then g
        else adjUpdate g e.src_operation_id (lst ++ [e.dst_operation_id])) := hp
    by_cases hdst : e.dst_operation_id ∈ lst
    · rw [if_pos hdst] at hp2
      exact ⟨p, hp2, rfl⟩
    · rw [if_neg hdst] at hp2
      exact adjUpdate_keys hp2

theorem adjStep_sound {g : List (String × List String)} {e : ODGEdge}
    {a b : String} (h : b ∈ adjGet (adjStep g e) a) :
    b ∈ adjGet g a ∨
      (a = e.src_operation_id ∧ b = e.dst_operation_id ∧
        ∃ p ∈ g, p.1 = e.src_operation_id) := by
  unfold adjStep at h
  rcases hfind : adjFind g e.src_operation_id with _ | lst
  · rw [hfind] at h
    exact Or.inl h
  · rw [hfind] at h
    have h2 : b ∈ adjGet (if e.dst_operation_id ∈ lst then g
        else adjUpdate g e.src_operation_id (lst ++ [e.dst_operation_id])) a := h
    by_cases hdst : e.dst_operation_id ∈ lst
    · rw [if_pos hdst] at h2
      exact Or.inl h2
    · rw [if_neg hdst] at h2
      rcases adjGet_adjUpdate _ _ g a h2 with ⟨ha, hb⟩ | h3
      · rcases List.mem_append.mp hb with hb' | hb'
        · refine Or.inl ?_
          rw [ha, adjGet_eq_of_adjFind hfind]
          exact hb'
        · rcases adjFind_eq_some hfind with ⟨p, hpg, hpk, _⟩
          exact Or.inr ⟨ha, by simpa using hb', p, hpg, hpk⟩
      · exact Or.inl h3

/-- Soundness of `_build_adjacency_list`: every adjacency `b ∈ adj(a)` comes
from an actual edge `a → b` whose source is a graph node. -/
theorem buildAdjacencyList_sound (odg : OperationDependencyGraph)
    (a b : String) (h : b ∈ adjGet (buildAdjacencyList odg) a) :
    a ∈ odg.nodes ∧
      ∃ e ∈ odg.edges, e.src_operation_id = a ∧ e.dst_operation_id = b := by
  have key : ∀ (es : List ODGEdge) (g : List (String × List String)),
      (∀ e ∈ es, e ∈ odg.edges) →
      (∀ p ∈ g, p.1 ∈ odg.nodes) →
      (∀ a' b', b' ∈ adjGet g a' → a' ∈ odg.nodes ∧
        ∃ e ∈ odg.edges, e.src_operation_id = a' ∧ e.dst_operation_id = b') →
      ∀ a' b', b' ∈ adjGet (es.foldl adjStep g) a' →
        a' ∈ odg.nodes ∧
          ∃ e ∈ odg.edges, e.src_operation_id = a' ∧ e.dst_operation_id = b' := by
    intro es
    induction es with
    | nil => intro g _ _ hsound a' b' h'; exact hsound a' b' h'
    | cons e rest ih =>
      intro g hes hkeys hsound a' b' h'
      rw [List.foldl_cons] at h'
      have hein : e ∈ odg.edges := hes e (by simp)
      refine ih _ (fun e' he' => hes e' (by simp [he'])) ?_ ?_ a' b' h'
      · intro p hp
        rcases adjStep_keys hp with ⟨q, hq, hqe⟩
        rw [hqe]
        exact hkeys q hq
      · intro a2 b2 h2
        rcases adjStep_sound h2 with h3 | ⟨ha2, hb2, p, hpg, hpk⟩
        · exact hsound a2 b2 h3
        · exact ⟨by rw [ha2, ← hpk]; exact hkeys p hpg,
            e, hein, ha2.symm, hb2.symm⟩
  refine key odg.edges (emptyAdj odg.nodes) (fun _ he => he)
    (fun p hp => (emptyAdj_mem odg.nodes p hp).2) ?_ a b h
  intro a' b' h'
  unfold adjGet at h'
  rcases hf : adjFind (emptyAdj odg.nodes) a' with _ | v
  · rw [hf] at h'; simp at h'
  · rw [hf] at h'
    rcases adjFind_eq_some hf with ⟨p, hpg, _, hpv⟩
    have hempty := (emptyAdj_mem odg.nodes p hpg).1
    rw [hempty] at hpv
    rw [← hpv] at h'
    simp at h'

/-! ## Shape of the sequences the DFS emits (C2, C6) -/

theorem dfs_base_case (graph : List (String × List String)) (maxLength : Nat)
    (start : String) (currentPath : List String)
    (hnd : (currentPath ++ [start]).Nodup)
    (hch : List.Chain' (adjRel graph) (currentPath ++ [start]))
    (seq : List String)
    (hseq : seq ∈ (if 2 ≤ (currentPath ++ [start]).length
      then [currentPath ++ [start]] else [])) :
    2 ≤ seq.length ∧
      seq.length ≤ max (currentPath.length + 1) maxLength ∧
      seq.Nodup ∧
      List.Chain' (adjRel graph) seq ∧
      (∀ x ∈ seq, x ∈ currentPath ++ [start] ∨ ∃ a, x ∈ adjGet graph a) := by
  by_cases h2 : 2 ≤ (currentPath ++ [start]).length
  · rw [if_pos h2] at hseq
    have hseq' := List.mem_singleton.mp hseq
    subst hseq'
    have hlen : (currentPath ++ [start]).length = currentPath.length + 1 := by
      simp
    refine ⟨h2, ?_, hnd, hch, fun x hx => Or.inl hx⟩
    rw [hlen]
    exact le_max_left _ _
  · rw [if_neg h2] at hseq
    simp at hseq

theorem dfsSequences_spec (graph : List (String × List String))
    (maxLength : Nat) :
    ∀ (n : Nat) (start : String) (visited currentPath : List String),
      maxLength - currentPath.length ≤ n →
      (currentPath ++ [start]).Nodup →
      (∀ x ∈ currentPath ++ [start], x ∈ start :: visited) →
      List.Chain' (adjRel graph) (currentPath ++ [start]) →
      ∀ seq ∈ dfsSequences graph maxLength start visited currentPath,
        2 ≤ seq.length ∧
          seq.length ≤ max (currentPath.length + 1) maxLength ∧
          seq.Nodup ∧
          List.Chain' (adjRel graph) seq ∧
          (∀ x ∈ seq, x ∈ currentPath ++ [start] ∨ ∃ a, x ∈ adjGet graph a) := by
  intro n
  induction n with
  | zero =>
    intro start visited currentPath hfuel hnd hvis hch seq hseq
    rw [dfsSequences] at hseq
    have hguard : ¬ (currentPath ++ [start]).length < maxLength := by
      simp only [List.length_append, List.length_cons, List.length_nil]
      omega
    rw [dif_neg hguard] at hseq
    exact dfs_base_case graph maxLength start currentPath hnd hch seq hseq
  | succ n ih =>
    intro start visited currentPath hfuel hnd hvis hch seq hseq
    rw [dfsSequences] at hseq
    by_cases hguard : (currentPath ++ [start]).length < maxLength
    case neg =>
      rw [dif_neg hguard] at hseq
      exact dfs_base_case graph maxLength start currentPath hnd hch seq hseq
    case pos =>
      rw [dif_pos hguard] at hseq
      rcases List.mem_append.mp hseq with hbase | hrec
      · exact dfs_base_case graph maxLength start currentPath hnd hch seq hbase
      · rcases (mem_foldl_append _ _ _ _).mp hrec with h0 | ⟨nb, hnb, hseq'⟩
        · simp at h0
        · have hnbmem : nb ∈ adjGet graph start ∧ ¬ nb ∈ start :: visited := by
            have hf := List.mem_filter.mp hnb
            exact ⟨hf.1, by simpa using hf.2⟩
          have hnbpath : ¬ nb ∈ currentPath ++ [start] :=
            fun hmem => hnbmem.2 (hvis nb hmem)
          have hnd' : ((currentPath ++ [start]) ++ [nb]).Nodup := by
            rw [List.nodup_append]
            refine ⟨hnd, List.nodup_singleton _, ?_⟩
            intro a ha hb
            rw [List.mem_singleton.mp hb] at ha
            exact hnbpath ha
          have hvis' : ∀ x ∈ (currentPath ++ [start]) ++ [nb],
              x ∈ nb :: (start :: visited) := by
            intro x hx
            rcases List.mem_append.mp hx with hx' | hx'
            · exact List.mem_cons_of_mem _ (hvis x hx')
            · rw [List.mem_singleton.mp hx']
              exact List.mem_cons_self _ _
          have hch' : List.Chain' (adjRel graph)
              ((currentPath ++ [start]) ++ [nb]) := by
            rw [List.chain'_append]
            refine ⟨hch, List.chain'_singleton _, ?_⟩
            intro x hx y hy
            rw [List.getLast?_concat] at hx
            simp only [Option.mem_def, Option.some.injEq] at hx
            simp only [List.head?_cons, Option.mem_def, Option.some.injEq] at hy
            rw [← hx, ← hy]
            exact hnbmem.1
          have hfuel' : maxLength - (currentPath ++ [start]).length ≤ n := by
            simp only [List.length_append, List.length_cons, List.length_nil]
              at hguard hfuel ⊢
            omega
          obtain ⟨hl2, hlm, hnd2, hch2, helem⟩ :=
            ih nb (start :: visited) (currentPath ++ [start]) hfuel' hnd'
              hvis' hch' seq hseq'
          refine ⟨hl2, ?_, hnd2, hch2, ?_⟩
          · have hmax : (currentPath ++ [start]).length + 1 ≤ maxLength := hguard
            calc seq.length
                ≤ max ((currentPath ++ [start]).length + 1) maxLength := hlm
              _ = maxLength := Nat.max_eq_right hmax
              _ ≤ max (currentPath.length + 1) maxLength := le_max_right _ _
          · intro x hx
            rcases helem x hx with hx' | hx'
            · rcases List.mem_append.mp hx' with hx'' | hx''
              · exact Or.inl hx''
              · refine Or.inr ⟨start, ?_⟩
                rw [List.mem_singleton.mp hx'']
                exact hnbmem.1
            · exact Or.inr hx'

theorem genLoop_length (graph : List (String × List String))
    (maxLength maxSequences : Nat) :
    ∀ (starts : List String) (acc : List (List String)),
      acc.length ≤ maxSequences →
      (genLoop graph maxLength maxSequences starts acc).length ≤ maxSequences
  | [], acc, hacc => hacc
  | s :: rest, acc, hacc => by
    rw [genLoop]
    by_cases hcut : maxSequences ≤
        (acc ++ dfsSequences graph maxLength s [] []).length
    · rw [if_pos hcut]
      rw [List.length_take]
      exact min_le_left _ _
    · rw [if_neg hcut]
      exact genLoop_length graph maxLength maxSequences rest _
        (Nat.le_of_lt (Nat.lt_of_not_le hcut))

theorem genLoop_mem (graph : List (String × List String))
    (maxLength maxSequences : Nat) :
    ∀ (starts : List String) (acc : List (List String)),
      ∀ seq ∈ genLoop graph maxLength maxSequences starts acc,
        seq ∈ acc ∨ ∃ s ∈ starts, seq ∈ dfsSequences graph maxLength s [] []
  | [], acc, seq, hseq => Or.inl hseq
  | s :: rest, acc, seq, hseq => by
    rw [genLoop] at hseq
    by_cases hcut : maxSequences ≤
        (acc ++ dfsSequences graph maxLength s [] []).length
    · rw [if_pos hcut] at hseq
      rcases List.mem_append.mp (List.take_subset _ _ hseq) with h | h
      · exact Or.inl h
      · exact Or.inr ⟨s, by simp, h⟩
    · rw [if_neg hcut] at hseq
      rcases genLoop_mem graph maxLength maxSequences rest _ seq hseq with h | ⟨s', hs', h⟩
      · rcases List.mem_append.mp h with h' | h'
        · exact Or.inl h'
        · exact Or.inr ⟨s, by simp, h'⟩
      · exact Or.inr ⟨s', by simp [hs'], h⟩

/-- Every sequence the sequencer can emit comes from one start node's DFS. -/
theorem generateSequenceLists_mem (odg : OperationDependencyGraph)
    (maxLength maxSequences : Nat) (seq : List String)
    (hseq : seq ∈ generateSequenceLists odg maxLength maxSequences) :
    ∃ s ∈ odg.nodes, seq ∈ dfsSequences (buildAdjacencyList odg) maxLength s [] [] := by
  unfold generateSequenceLists at hseq
  rcases genLoop_mem _ _ _ _ _ seq hseq with h | ⟨s, hs, h⟩
  · simp at h
  · refine ⟨s, ?_, h⟩
    by_cases hempty : findStartNodes odg = []
    · rw [if_pos hempty] at hs
      exact hs
    · rw [if_neg hempty] at hs
      unfold findStartNodes at hs
      exact List.mem_of_mem_filter hs

/-- Operation lists of the id-tagged sequences are the raw sequence lists. -/
theorem generateSequences_operations (gen : Nat → String)
    (odg : OperationDependencyGraph) (maxLength maxSequences : Nat)
    (s : OperationSequence)
    (hs : s ∈ generateSequences gen odg maxLength maxSequences) :
    s.operations ∈ generateSequenceLists odg maxLength maxSequences := by
  unfold generateSequences at hs
  rcases List.mem_map.mp hs with ⟨p, hp, hpe⟩
  have h' := List.mem_map_of_mem Prod.snd hp
  rw [List.enum_map_snd] at h'
  rw [← hpe]
  exact h'

/-- C2: every sequence `generate_sequences` produces has length between 2 and
`max_sequence_length`, repeats no operation id, and steps only along single
ODG edges; and at most `max_sequences` sequences are returned. -/
theorem sequencer_sequences_wellformed (gen : Nat → String)
    (odg : OperationDependencyGraph) (maxLength maxSequences : Nat)
    (hL : 0 < maxLength) (hS : 0 < maxSequences) :
    (generateSequences gen odg maxLength maxSequences).length ≤ maxSequences ∧
      ∀ s ∈ generateSequences gen odg maxLength maxSequences,
        2 ≤ s.operations.length ∧ s.operations.length ≤ maxLength ∧
          s.operations.Nodup ∧
          List.Chain' (fun a b => ∃ e ∈ odg.edges,
            e.src_operation_id = a ∧ e.dst_operation_id = b) s.operations := by
  constructor
  · have hlen : (generateSequences gen odg maxLength maxSequences).length =
        (generateSequenceLists odg maxLength maxSequences).length := by
      simp [generateSequences]
    rw [hlen]
    unfold generateSequenceLists
    exact genLoop_length _ _ _ _ [] (Nat.zero_le _)
  · intro s hs
    rcases generateSequenceLists_mem odg maxLength maxSequences s.operations
        (generateSequences_operations gen odg maxLength maxSequences s hs)
      with ⟨st, hstn, hdfs⟩
    obtain ⟨h2, hlm, hnd, hch, _⟩ :=
      dfsSequences_spec (buildAdjacencyList odg) maxLength maxLength st [] []
        (by simp) (by simp) (by intro x hx; simpa using hx)
        (by simp) s.operations hdfs
    refine ⟨h2, ?_, hnd, ?_⟩
    · have hmax : max (List.length ([] : List String) + 1) maxLength =
          maxLength := by
        simp only [List.length_nil]
        exact Nat.max_eq_right hL
      rw [hmax] at hlm
      exact hlm
    · exact hch.imp (fun a b hab => (buildAdjacencyList_sound odg a b hab).2)

/-- Witness for C2: on the graph with nodes `g1, p1`, one edge `g1 → p1`,
bounds 10 and 20, the theorem's conclusions hold. -/
theorem sequencer_sequences_wellformed_witness :
    (generateSequences genW ⟨["g1", "p1"], [⟨"g1", "p1", "seed"⟩]⟩ 10 20).length
        ≤ 20 ∧
      ∀ s ∈ generateSequences genW ⟨["g1", "p1"], [⟨"g1", "p1", "seed"⟩]⟩ 10 20,
        2 ≤ s.operations.length ∧ s.operations.length ≤ 10 ∧
          s.operations.Nodup ∧
          List.Chain' (fun a b =>
            ∃ e ∈ (OperationDependencyGraph.mk ["g1", "p1"]
              [⟨"g1", "p1", "seed"⟩]).edges,
            e.src_operation_id = a ∧ e.dst_operation_id = b) s.operations :=
  sequencer_sequences_wellformed genW ⟨["g1", "p1"], [⟨"g1", "p1", "seed"⟩]⟩
    10 20 (by decide) (by decide)

/-! ## Which ids can appear in a sequence (C6) -/

/-- C6 (amended): `_build_adjacency_list` skips an edge only when its *source*
is absent from the node set — the destination is never checked — so an
operation id appearing in a produced sequence is either a graph node or the
destination of some edge whose source is a graph node (and may therefore lie
outside the node set). -/
theorem sequencer_sequence_members (gen : Nat → String)
    (odg : OperationDependencyGraph) (maxLength maxSequences : Nat) :
    ∀ s ∈ generateSequences gen odg maxLength maxSequences,
      ∀ x ∈ s.operations,
        x ∈ odg.nodes ∨
          ∃ e ∈ odg.edges,
            e.src_operation_id ∈ odg.nodes ∧ e.dst_operation_id = x := by
  intro s hs x hx
  rcases generateSequenceLists_mem odg maxLength maxSequences s.operations
      (generateSequences_operations gen odg maxLength maxSequences s hs)
    with ⟨st, hstn, hdfs⟩
  obtain ⟨_, _, _, _, helem⟩ :=
    dfsSequences_spec (buildAdjacencyList odg) maxLength maxLength st [] []
      (by simp) (by simp) (by intro y hy; simpa using hy)
      (by simp) s.operations hdfs
  rcases helem x hx with h | ⟨a, ha⟩
  · simp only [List.nil_append, List.mem_singleton] at h
    rw [h]
    exact Or.inl hstn
  · obtain ⟨hanode, e, he, hsrc, hdst⟩ := buildAdjacencyList_sound odg a x ha
    exact Or.inr ⟨e, he, by rw [hsrc]; exact hanode, hdst⟩

/-- Concrete run used for C6: one node `"a"`, one edge `"a" → "b"` whose
destination is *not* a node; the sequencer still emits `["a", "b"]`. -/
theorem genseq_eval_cex :
    generateSequenceLists ⟨["a"], [⟨"a", "b", "read"⟩]⟩ 10 20 = [["a", "b"]] := by
  have h1 : generateSequenceListsF 11 ⟨["a"], [⟨"a", "b", "read"⟩]⟩ 10 20 =
      some (generateSequenceLists ⟨["a"], [⟨"a", "b", "read"⟩]⟩ 10 20) := by
    unfold generateSequenceListsF generateSequenceLists
    exact genLoopF_eq _ _ _ _ (by omega) _ []
  have h2 : generateSequenceListsF 11 ⟨["a"], [⟨"a", "b", "read"⟩]⟩ 10 20 =
      some [["a", "b"]] := by decide
  rw [h1] at h2
  exact Option.some.inj h2

/-- Counterexample to C6 as stated: an edge whose destination is missing from
the node set is *not* skipped; the emitted sequence `["a", "b"]` contains the
non-node `"b"`. -/
theorem sequencer_nodes_cex :
    ¬ (∀ seq ∈ generateSequenceLists ⟨["a"], [⟨"a", "b", "read"⟩]⟩ 10 20,
        ∀ x ∈ seq,
          x ∈ (OperationDependencyGraph.mk ["a"] [⟨"a", "b", "read"⟩]).nodes) := by
  intro hall
  have hb := hall ["a", "b"]
    (by rw [genseq_eval_cex]; exact List.mem_singleton.mpr rfl)
    "b" (by decide)
  simp at hb

/-- Witness for the amended C6 on the same concrete run. -/
theorem sequencer_sequence_members_witness :
    "b" ∈ (OperationDependencyGraph.mk ["a"] [⟨"a", "b", "read"⟩]).nodes ∨
      ∃ e ∈ (OperationDependencyGraph.mk ["a"] [⟨"a", "b", "read"⟩]).edges,
        e.src_operation_id ∈
            (OperationDependencyGraph.mk ["a"] [⟨"a", "b", "read"⟩]).nodes ∧
          e.dst_operation_id = "b" :=
  sequencer_sequence_members genW ⟨["a"], [⟨"a", "b", "read"⟩]⟩ 10 20
    ⟨genW 0, ["a", "b"]⟩
    (by
      unfold generateSequences
      rw [genseq_eval_cex]
      exact List.mem_singleton.mpr rfl)
    "b" (by decide)

/-! ## The heuristic GET→WRITE edges of the ODG builder (C5) -/

theorem opDict_eq_of_nodup :
    ∀ (operations : List Operation) (acc : List (String × Operation)),
      (operations.map (fun op => op.operation_id)).Nodup →
      (∀ op ∈ operations, acc.any (fun p => p.1 = op.operation_id) = false) →
      operations.foldl (fun m op => dictInsertOp m op.operation_id op) acc =
        acc ++ operations.map (fun op => (op.operation_id, op))
  | [], acc, _, _ => by simp
  | op :: rest, acc, hnd, hacc => by
    simp only [List.map_cons, List.nodup_cons, List.mem_map] at hnd
    rw [List.foldl_cons]
    have hop : acc.any (fun p => p.1 = op.operation_id) = false :=
      hacc op (by simp)
    rw [dictInsertOp, if_neg (by simp [hop])]
    rw [opDict_eq_of_nodup rest (acc ++ [(op.operation_id, op)]) hnd.2
      (by
        intro op' hop'
        have hne : op.operation_id ≠ op'.operation_id := by
          intro he
          exact hnd.1 ⟨op', hop', he.symm⟩
        have h1 : acc.any (fun p => p.1 = op'.operation_id) = false :=
          hacc op' (by simp [hop'])
        simp [List.any_append, h1, hne])]
    simp

theorem opDict_eq (operations : List Operation)
    (h : (operations.map (fun op => op.operation_id)).Nodup) :
    opDict operations = operations.map (fun op => (op.operation_id, op)) := by
  unfold opDict
  simpa using opDict_eq_of_nodup operations [] h (by simp)

theorem find_map_op :
    ∀ (operations : List Operation),
      (operations.map (fun op => op.operation_id)).Nodup →
      ∀ op ∈ operations,
        (operations.map (fun o => (o.operation_id, o))).find?
            (fun p => p.1 = op.operation_id) = some (op.operation_id, op)
  | [], _, op, hop => by simp at hop
  | o :: rest, hnd, op, hop => by
    simp only [List.map_cons, List.nodup_cons, List.mem_map] at hnd
    by_cases he : o.operation_id = op.operation_id
    · have hoe : o = op := by
        rcases List.mem_cons.mp hop with h' | h'
        · exact h'.symm
        · exact absurd ⟨op, h', he.symm⟩ hnd.1
      rw [List.map_cons, List.find?_cons, hoe]
      simp
    · have hop' : op ∈ rest := by
        rcases List.mem_cons.mp hop with h' | h'
        · exact absurd (h' ▸ rfl) he
        · exact h'
      rw [List.map_cons, List.find?_cons]
      have hdec : (decide (o.operation_id = op.operation_id)) = false := by
        simpa using he
      rw [hdec]
      exact find_map_op rest hnd.2 op hop'

theorem dictFindOp_opDict (operations : List Operation)
    (h : (operations.map (fun op => op.operation_id)).Nodup)
    (op : Operation) (hop : op ∈ operations) :
    dictFindOp (opDict operations) op.operation_id = some op := by
  rw [dictFindOp, opDict_eq operations h, find_map_op operations h op hop]
  rfl

theorem multiAdd_preserve {m : List (String × List String)} {r : String}
    {l : List String} {x : String} (hm : (r, l) ∈ m) (hx : x ∈ l)
    (k v : String) : ∃ l', (r, l') ∈ multiAdd m k v ∧ x ∈ l' := by
  unfold multiAdd
  by_cases hany : m.any (fun p => p.1 = k)
  · rw [if_pos hany]
    by_cases hrk : r = k
    · refine ⟨l ++ [v], ?_, by simp [hx]⟩
      have := List.mem_map_of_mem
        (fun p : String × List String =>
          if p.1 = k then (p.1, p.2 ++ [v]) else p) hm
      simpa [hrk] using this
    · refine ⟨l, ?_, hx⟩
      have := List.mem_map_of_mem
        (fun p : String × List String =>
          if p.1 = k then (p.1, p.2 ++ [v]) else p) hm
      simpa [hrk] using this
  · rw [if_neg hany]
    exact ⟨l, by simp [hm], hx⟩

theorem multiAdd_insert (m : List (String × List String)) (k v : String) :
    ∃ l', (k, l') ∈ multiAdd m k v ∧ v ∈ l' := by
  unfold multiAdd
  by_cases hany : m.any (fun p => p.1 = k)
  · rw [if_pos hany]
    rcases List.any_eq_true.mp hany with ⟨p, hp, hpk⟩
    have hpk' : p.1 = k := by simpa using hpk
    refine ⟨p.2 ++ [v], ?_, by simp⟩
    have := List.mem_map_of_mem
      (fun q : String × List String =>
        if q.1 = k then (q.1, q.2 ++ [v]) else q) hp
    simpa [hpk'] using this
  · rw [if_neg hany]
    exact ⟨[v], by simp, by simp⟩

theorem resStep_preserve {m : List (String × List String)} {r : String}
    {l : List String} {x : String} (hm : (r, l) ∈ m) (hx : x ∈ l)
    (kv : String × Operation) :
    ∃ l', (r, l') ∈ resStep m kv ∧ x ∈ l' := by
  unfold resStep
  rcases resourceOf kv.2.path with _ | r'
  · exact ⟨l, hm, hx⟩
  · exact multiAdd_preserve hm hx r' kv.1

theorem foldl_resStep_preserve {r : String} {l : List String} {x : String} :
    ∀ (items : List (String × Operation)) (m : List (String × List String)),
      (r, l) ∈ m → x ∈ l →
      ∃ l', (r, l') ∈ items.foldl resStep m ∧ x ∈ l'
  | [], _, hm, hx => ⟨l, hm, hx⟩
  | kv :: rest, m, hm, hx => by
    rw [List.foldl_cons]
    rcases resStep_preserve hm hx kv with ⟨l', hl', hx'⟩
    exact foldl_resStep_preserve rest (resStep m kv) hl' hx'

theorem buildResources_contains :
    ∀ (items : List (String × Operation)) (m : List (String × List String))
      (kv : String × Operation), kv ∈ items →
      ∀ r, resourceOf kv.2.path = some r →
      ∃ l, (r, l) ∈ items.foldl resStep m ∧ kv.1 ∈ l
  | [], _, kv, hkv, _, _ => by simp at hkv
  | kv0 :: rest, m, kv, hkv, r, hres => by
    rw [List.foldl_cons]
    rcases List.mem_cons.mp hkv with he | hmem
    · subst he
      have hstep : resStep m kv = multiAdd m r kv.1 := by
        unfold resStep
        rw [hres]
      rw [hstep]
      rcases multiAdd_insert m r kv.1 with ⟨l', hl', hv⟩
      exact foldl_resStep_preserve rest _ hl' hv
    · exact buildResources_contains rest (resStep m kv0) kv hmem r hres

theorem multiAdd_keys_nodup {m : List (String × List String)}
    (hnd : (m.map Prod.fst).Nodup) (k v : String) :
    ((multiAdd m k v).map Prod.fst).Nodup := by
  unfold multiAdd
  by_cases hany : m.any (fun p => p.1 = k)
  · rw [if_pos hany]
    have hkeys : (m.map (fun p => if p.1 = k then (p.1, p.2 ++ [v]) else p)).map
        Prod.fst = m.map Prod.fst := by
      rw [List.map_map]
      apply List.map_congr_left
      intro p _
      by_cases h : p.1 = k <;> simp [h]
    rw [hkeys]
    exact hnd
  · rw [if_neg hany]
    rw [List.map_append]
    simp only [List.map_cons, List.map_nil]
    rw [List.nodup_append]
    refine ⟨hnd, List.nodup_singleton _, ?_⟩
    intro a ha hb
    rw [List.mem_singleton.mp hb] at ha
    rcases List.mem_map.mp ha with ⟨p, hp, hpk⟩
    have : m.any (fun p => p.1 = k) = true :=
      List.any_eq_true.mpr ⟨p, hp, by simpa using hpk⟩
    simp [this] at hany

theorem resStep_keys_nodup {m : List (String × List String)}
    (hnd : (m.map Prod.fst).Nodup) (kv : String × Operation) :
    ((resStep m kv).map Prod.fst).Nodup := by
  unfold resStep
  rcases resourceOf kv.2.path with _ | r
  · exact hnd
  · exact multiAdd_keys_nodup hnd r kv.1

theorem foldl_resStep_keys_nodup :
    ∀ (items : List (String × Operation)) (m : List (String × List String)),
      (m.map Prod.fst).Nodup →
      ((items.foldl resStep m).map Prod.fst).Nodup
  | [], _, hnd => hnd
  | kv :: rest, m, hnd => by
    rw [List.foldl_cons]
    exact foldl_resStep_keys_nodup rest (resStep m kv) (resStep_keys_nodup hnd kv)

theorem keys_nodup_eq {α : Type} :
    ∀ (m : List (String × α)), (m.map Prod.fst).Nodup →
      ∀ {r : String} {l1 l2 : α}, (r, l1) ∈ m → (r, l2) ∈ m → l1 = l2
  | [], _, _, _, _, h1, _ => by simp at h1
  | p :: rest, hnd, r, l1, l2, h1, h2 => by
    simp only [List.map_cons, List.nodup_cons, List.mem_map] at hnd
    rcases List.mem_cons.mp h1 with he1 | he1 <;>
      rcases List.mem_cons.mp h2 with he2 | he2
    · rw [← he1] at he2
      exact congrArg Prod.snd he2.symm
    · exact absurd ⟨(r, l2), he2, by rw [← he1]⟩ hnd.1
    · exact absurd ⟨(r, l1), he1, by rw [← he2]⟩ hnd.1
    · exact keys_nodup_eq rest hnd.2 he1 he2

theorem edgesForResource_mem (items : List (String × Operation)) (r : String)
    (ops : List String) {g w : String}
    (hg : g ∈ ops) (hgget : isGetId items g = true)
    (hw : w ∈ ops) (hwwrite : isWriteId items w = true) :
    ∃ e ∈ edgesForResource items r ops,
      e.src_operation_id = g ∧ e.dst_operation_id = w := by
  refine ⟨⟨g, w, "Reading " ++ r ++ " data before modifying " ++ r⟩,
    ?_, rfl, rfl⟩
  unfold edgesForResource
  apply List.mem_append_left
  apply List.mem_flatMap.mpr
  exact ⟨g, List.mem_filter.mpr ⟨hg, hgget⟩,
    List.mem_map_of_mem _ (List.mem_filter.mpr ⟨hw, hwwrite⟩)⟩

/-- C5: for any two operations of the parsed specification that fall in the
same resource group (`path.split("/")[1]` with trailing `s` stripped), one a
GET and the other a POST/PUT/PATCH, the graph built by `build_graph` contains
an edge from the GET operation to the write operation. -/
theorem odg_builder_get_write_edge (spec : ParsedSpec) (op1 op2 : Operation)
    (r : String)
    (hids : (spec.operations.map (fun op => op.operation_id)).Nodup)
    (h1 : op1 ∈ spec.operations) (h2 : op2 ∈ spec.operations)
    (hr1 : resourceOf op1.path = some r) (hr2 : resourceOf op2.path = some r)
    (hm1 : op1.method = HTTPMethod.GET)
    (hm2 : op2.method = HTTPMethod.POST ∨ op2.method = HTTPMethod.PUT ∨
      op2.method = HTTPMethod.PATCH) :
    ∃ e ∈ (buildGraphODG spec).edges,
      e.src_operation_id = op1.operation_id ∧
        e.dst_operation_id = op2.operation_id := by
  have hitems1 : (op1.operation_id, op1) ∈ opDict spec.operations := by
    rw [opDict_eq spec.operations hids]
    exact List.mem_map_of_mem _ h1
  have hitems2 : (op2.operation_id, op2) ∈ opDict spec.operations := by
    rw [opDict_eq spec.operations hids]
    exact List.mem_map_of_mem _ h2
  rcases buildResources_contains (opDict spec.operations) []
      (op1.operation_id, op1) hitems1 r hr1 with ⟨l1, hl1, hmem1⟩
  rcases buildResources_contains (opDict spec.operations) []
      (op2.operation_id, op2) hitems2 r hr2 with ⟨l2, hl2, hmem2⟩
  have hkeys := foldl_resStep_keys_nodup (opDict spec.operations) []
    (by simp)
  have hleq : l1 = l2 := keys_nodup_eq _ hkeys hl1 hl2
  subst hleq
  have hget : isGetId (opDict spec.operations) op1.operation_id = true := by
    unfold isGetId
    rw [dictFindOp_opDict spec.operations hids op1 h1]
    simp [hm1, HTTPMethod.value]
  have hwrite : isWriteId (opDict spec.operations) op2.operation_id = true := by
    unfold isWriteId
    rw [dictFindOp_opDict spec.operations hids op2 h2]
    rcases hm2 with h | h | h <;> simp [h, HTTPMethod.value]
  rcases edgesForResource_mem (opDict spec.operations) r l1
      hmem1 hget hmem2 hwrite with ⟨e, he, hsrc, hdst⟩
  refine ⟨e, ?_, hsrc, hdst⟩
  unfold buildGraphODG heuristicAnalysis
  apply (mem_foldl_append _ _ _ _).mpr
  exact Or.inr ⟨(r, l1), hl1, he⟩

/-- Witness for C5: `getFlight` (GET `/flights/f1`) and `bookFlight`
(POST `/flights`) share the resource `flight`, so the built graph has the
edge `getFlight → bookFlight`. -/
theorem odg_builder_get_write_edge_witness :
    ∃ e ∈ (buildGraphODG ⟨[⟨"getFlight", "/flights/f1", HTTPMethod.GET⟩,
        ⟨"bookFlight", "/flights", HTTPMethod.POST⟩]⟩).edges,
      e.src_operation_id = "getFlight" ∧ e.dst_operation_id = "bookFlight" :=
  odg_builder_get_write_edge
    ⟨[⟨"getFlight", "/flights/f1", HTTPMethod.GET⟩,
      ⟨"bookFlight", "/flights", HTTPMethod.POST⟩]⟩
    ⟨"getFlight", "/flights/f1", HTTPMethod.GET⟩
    ⟨"bookFlight", "/flights", HTTPMethod.POST⟩
    "flight" (by decide) (by decide) (by decide) (by decide) (by decide)
    rfl (Or.inl rfl)

/-! ## The miner's trivial size invariants (C4) -/

theorem listInsert_mem_of_mem {l : List String} {x : String} (y : String)
    (h : x ∈ l) : x ∈ listInsert l y := by
  unfold listInsert
  by_cases hy : y ∈ l
  · rw [if_pos hy]; exact h
  · rw [if_neg hy]; exact List.mem_append_left _ h

theorem listInsert_mem_self (l : List String) (x : String) :
    x ∈ listInsert l x := by
  unfold listInsert
  by_cases hx : x ∈ l
  · rw [if_pos hx]; exact hx
  · rw [if_neg hx]; exact List.mem_append_right _ (by simp)

theorem identifyArrayProperties_fold_mono
    (cond : String → Bool) {p : String} :
    ∀ (props : List String) (acc : List String), p ∈ acc →
      p ∈ props.foldl
        (fun acc q => if cond q then listInsert acc q else acc) acc
  | [], _, hacc => hacc
  | q :: rest, acc, hacc => by
    rw [List.foldl_cons]
    apply identifyArrayProperties_fold_mono cond rest
    by_cases hc : cond q
    · rw [if_pos hc]; exact listInsert_mem_of_mem q hacc
    · rw [if_neg hc]; exact hacc

theorem identifyArrayProperties_fold_mem
    (cond : String → Bool) {p : String} (hcond : cond p = true) :
    ∀ (props : List String) (acc : List String), p ∈ props →
      p ∈ props.foldl
        (fun acc q => if cond q then listInsert acc q else acc) acc
  | [], _, hp => by simp at hp
  | q :: rest, acc, hp => by
    rw [List.foldl_cons]
    rcases List.mem_cons.mp hp with he | hmem
    · subst he
      exact identifyArrayProperties_fold_mono cond rest _
        (by rw [if_pos hcond]; exact listInsert_mem_self acc p)
    · exact identifyArrayProperties_fold_mem cond hcond rest _ hmem

theorem identifyArrayProperties_mem (logs : List HTTPResponse)
    (properties : List String) (p : String) (hp : p ∈ properties)
    (hall : logs.all (fun log => isArrayValue (getNestedValue log.body p))
      = true) :
    p ∈ identifyArrayProperties logs properties := by
  unfold identifyArrayProperties
  exact identifyArrayProperties_fold_mem _ hall properties [] hp

theorem groupLogs_values_nonempty (logs : List HTTPResponse) :
    ∀ kg ∈ groupLogs logs, kg.2 ≠ [] := by
  have key : ∀ (ls : List HTTPResponse) (m : List (String × List HTTPResponse)),
      (∀ kg ∈ m, kg.2 ≠ []) →
      ∀ kg ∈ ls.foldl (fun m log => multiAddLog m (groupKey log) log) m,
        kg.2 ≠ [] := by
    intro ls
    induction ls with
    | nil => intro m hm kg hkg; exact hm kg hkg
    | cons log rest ih =>
      intro m hm kg hkg
      rw [List.foldl_cons] at hkg
      refine ih _ ?_ kg hkg
      intro kg' hkg'
      unfold multiAddLog at hkg'
      by_cases hany : m.any (fun p => p.1 = groupKey log)
      · rw [if_pos hany] at hkg'
        rcases List.mem_map.mp hkg' with ⟨q, hq, hqe⟩
        by_cases hqk : q.1 = groupKey log
        · rw [if_pos hqk] at hqe
          rw [← hqe]
          simp
        · rw [if_neg hqk] at hqe
          rw [← hqe]
          exact hm q hq
      · rw [if_neg hany] at hkg'
        rcases List.mem_append.mp hkg' with h' | h'
        · exact hm kg' h'
        · rw [List.mem_singleton.mp h']
          simp
  exact key logs [] (by simp)

theorem groupLogs_nonempty_logs {logs : List HTTPResponse}
    {kg : String × List HTTPResponse} (h : kg ∈ groupLogs logs) :
    logs.isEmpty = false := by
  cases logs with
  | nil => simp [groupLogs] at h
  | cons a l => rfl

theorem endpointInvariantContents_size (group : List HTTPResponse)
    (p : String) (hne : group.isEmpty = false)
    (hp : p ∈ extractResponseProperties group)
    (hall : group.all (fun log => isArrayValue (getNestedValue log.body p))
      = true) :
    (["size(response." ++ p ++ ")"], "size(response." ++ p ++ ") >= 0") ∈
      endpointInvariantContents group := by
  unfold endpointInvariantContents
  rw [hne]
  simp only [Bool.false_eq_true, if_false]
  apply List.mem_append_right
  apply (mem_foldl_append (fun q => checkSizeContents q) _ _ _).mpr
  refine Or.inr ⟨p, identifyArrayProperties_mem group _ p hp hall, ?_⟩
  unfold checkSizeContents
  simp

/-- C4: for every endpoint+method group of the recorded exchanges and every
flattened response property whose observed value is a list in every exchange
of the group, `discover_invariants` emits the trivial size invariant
`size(response.<path>) >= 0` for that property. -/
theorem miner_size_invariant (gen : Nat → String) (logs : List HTTPResponse)
    (key : String) (group : List HTTPResponse) (p : String)
    (hgroup : (key, group) ∈ groupLogs logs)
    (hp : p ∈ extractResponseProperties group)
    (harr : ∀ log ∈ group, isArrayValue (getNestedValue log.body p) = true) :
    ∃ inv ∈ discoverInvariants gen logs,
      inv.expression = "size(response." ++ p ++ ") >= 0" := by
  have hne : group.isEmpty = false := by
    have := groupLogs_values_nonempty logs (key, group) hgroup
    simpa [List.isEmpty_iff] using this
  have hcontent :
      (["size(response." ++ p ++ ")"], "size(response." ++ p ++ ") >= 0") ∈
        discoverInvariantContents logs := by
    unfold discoverInvariantContents
    rw [groupLogs_nonempty_logs hgroup]
    simp only [Bool.false_eq_true, if_false]
    apply (mem_foldl_append
      (fun g : String × List HTTPResponse =>
        endpointInvariantContents g.2) _ _ _).mpr
    refine Or.inr ⟨(key, group), hgroup, ?_⟩
    exact endpointInvariantContents_size group p hne hp
      (List.all_eq_true.mpr (fun log hl => harr log hl))
  unfold discoverInvariants
  have hsnd : (["size(response." ++ p ++ ")"],
      "size(response." ++ p ++ ") >= 0") ∈
        (discoverInvariantContents logs).enum.map Prod.snd := by
    rw [List.enum_map_snd]
    exact hcontent
  rcases List.mem_map.mp hsnd with ⟨q, hq, hqe⟩
  refine ⟨⟨gen q.1, q.2.1, q.2.2⟩, List.mem_map_of_mem _ hq, ?_⟩
  rw [show q.2.2 = (q.2).2 from rfl, hqe]

/-- Witness for C4: one recorded exchange whose body maps the literal key
`"x[]"` to a list; the flattened property `"x[]"` is array-valued in every
exchange of its group, and the trivial size invariant is emitted. -/
theorem miner_size_invariant_witness :
    ∃ inv ∈ discoverInvariants genW
      [⟨"/v1/charges", HTTPMethod.GET,
        JSON.obj [("x", JSON.arr [JSON.num 1]), ("x[]", JSON.arr [JSON.num 2])]⟩],
      inv.expression = "size(response.x[]) >= 0" :=
  miner_size_invariant genW
    [⟨"/v1/charges", HTTPMethod.GET,
      JSON.obj [("x", JSON.arr [JSON.num 1]), ("x[]", JSON.arr [JSON.num 2])]⟩]
    "/v1/charges:GET"
    [⟨"/v1/charges", HTTPMethod.GET,
      JSON.obj [("x", JSON.arr [JSON.num 1]), ("x[]", JSON.arr [JSON.num 2])]⟩]
    "x[]"
    (List.mem_singleton.mpr rfl)
    (by decide)
    (by decide)

/-! ## The combiner on the one-static/one-dynamic pair (C1) -/

/-- Counterexample to C1 as stated: combining the static constraint
`response.amount > 100` (id `s1`) with the dynamic invariant
`response.amount > 50` (id `d1`) keeps the stricter static expression, but
the provenance list is `["s1"]` only — `"d1"` is *not* recorded, because a
merge that does not change the expression is a no-op. -/
theorem combiner_single_pair_cex :
    (combineConstraints genW
        [⟨"s1", ConstraintSource.response_property, "/flights",
          HTTPMethod.GET, "response.amount > 100", none⟩]
        [⟨"d1", ["response.amount"], "response.amount > 50"⟩]).map
      (fun u => (u.expression, u.originating_ids)) =
      [("response.amount > 100", ["s1"])] ∧
    ¬ "d1" ∈ (["s1"] : List String) := by
  constructor
  · decide
  · decide

/-- C1 (amended): for one static constraint `response.amount > 100` and one
dynamic invariant `response.amount > 50` on the same property, the unified
constraint keeps the static (stricter) expression and its provenance is
exactly the static constraint's id; the dynamic invariant's id is not
appended, since the no-change merge is a no-op. -/
theorem combiner_single_pair (gen : Nat → String) (sid did ep : String)
    (src : ConstraintSource) (m : HTTPMethod) (det : Option String)
    (vars : List String) :
    (combineConstraints gen
        [⟨sid, src, ep, m, "response.amount > 100", det⟩]
        [⟨did, vars, "response.amount > 50"⟩]).map
      (fun u => (u.expression, u.originating_ids)) =
      [("response.amount > 100", [sid])] := by
  have hov : constraintsOverlap "response.amount > 100" "response.amount > 50"
      = true := by decide
  have hsel : selectStricter "response.amount > 100" "response.amount > 50"
      = "response.amount > 100" := by decide
  simp [combineConstraints, staticSeed, combineStep, findMatchingConstraints,
    processMatches, mergeConstraints, List.foldl_cons, List.foldl_nil,
    List.filter_cons, hov, hsel]

/-! ## The combiner's inner loop under distinct unified ids (C8, C3) -/

theorem genV_injective : Function.Injective genV := by
  intro a b h
  have hlen := congrArg (fun s => s.data.length) h
  simpa [genV] using hlen

theorem mergeConstraints_id (u : UnifiedConstraint) (inv : DynamicInvariant) :
    (mergeConstraints u inv).id = u.id := by
  unfold mergeConstraints
  by_cases h : selectStricter u.expression inv.expression = u.expression
  · rw [if_pos h]
  · rw [if_neg h]

theorem mergeConstraints_eq_self_iff (u : UnifiedConstraint)
    (inv : DynamicInvariant) :
    (mergeConstraints u inv = u) ↔
      selectStricter u.expression inv.expression = u.expression := by
  unfold mergeConstraints
  by_cases h : selectStricter u.expression inv.expression = u.expression
  · rw [if_pos h]
    simp [h]
  · rw [if_neg h]
    constructor
    · intro he
      exact absurd (congrArg UnifiedConstraint.expression he) h
    · intro he
      exact absurd he h

theorem combineMapStep_id (inv : DynamicInvariant) (u : UnifiedConstraint) :
    (combineMapStep inv u).id = u.id := by
  unfold combineMapStep
  by_cases hov : constraintsOverlap u.expression inv.expression
  · rw [if_pos hov]
    by_cases hm : mergeConstraints u inv = u
    · rw [if_pos hm]
    · rw [if_neg hm]
      exact mergeConstraints_id u inv
  · rw [if_neg hov]

theorem processMatches_nil (inv : DynamicInvariant)
    (ucs : List UnifiedConstraint) : processMatches [] inv ucs = ucs := rfl

theorem processMatches_cons (m : UnifiedConstraint)
    (M : List UnifiedConstraint) (inv : DynamicInvariant)
    (ucs : List UnifiedConstraint) :
    processMatches (m :: M) inv ucs =
      processMatches M inv
        (if mergeConstraints m inv = m then ucs
         else updateFirstEq ucs m (mergeConstraints m inv)) := by
  unfold processMatches
  rw [List.foldl_cons]
  by_cases hm : mergeConstraints m inv = m
  · rw [if_pos hm]
    congr 1
    simp [hm]
  · rw [if_neg hm]
    congr 1
    simp [hm]

theorem updateFirstEq_append_not_mem (target merged : UnifiedConstraint) :
    ∀ (pre rest : List UnifiedConstraint),
      (∀ p ∈ pre, p ≠ target) →
      updateFirstEq (pre ++ target :: rest) target merged =
        pre ++ merged :: rest
  | [], rest, _ => by simp [updateFirstEq]
  | p :: pre', rest, hpre => by
    rw [List.cons_append]
    show (if p = target then merged :: (pre' ++ target :: rest)
      else p :: updateFirstEq (pre' ++ target :: rest) target merged) = _
    rw [if_neg (hpre p (by simp))]
    rw [updateFirstEq_append_not_mem target merged pre' rest
      (fun q hq => hpre q (by simp [hq]))]
    simp

theorem pre_ne_of_nodup_ids {pre rest : List UnifiedConstraint}
    {u : UnifiedConstraint}
    (hnd : ((pre ++ u :: rest).map (fun x => x.id)).Nodup) :
    ∀ p ∈ pre, p ≠ u := by
  intro p hp he
  rw [List.map_append] at hnd
  have hdisj := List.disjoint_of_nodup_append hnd
  exact hdisj (List.mem_map_of_mem _ hp)
    (by rw [he]; exact List.mem_cons_self _ _)

theorem processMatches_eq (inv : DynamicInvariant) :
    ∀ (suf pre : List UnifiedConstraint),
      ((pre ++ suf).map (fun x => x.id)).Nodup →
      processMatches (findMatchingConstraints inv suf) inv (pre ++ suf) =
        pre ++ suf.map (combineMapStep inv)
  | [], pre, _ => by
    simp [processMatches, findMatchingConstraints]
  | u :: rest, pre, hnd => by
    rw [findMatchingConstraints, List.filter_cons]
    by_cases hov : constraintsOverlap u.expression inv.expression
    · rw [if_pos (by simpa using hov)]
      rw [processMatches_cons]
      by_cases hm : mergeConstraints u inv = u
      · rw [if_pos hm]
        have heq : pre ++ u :: rest = (pre ++ [u]) ++ rest := by simp
        rw [heq]
        have hnd' : (((pre ++ [u]) ++ rest).map (fun x => x.id)).Nodup := by
          rw [← heq]; exact hnd
        rw [show processMatches (List.filter
            (fun x => constraintsOverlap x.expression inv.expression) rest)
            inv ((pre ++ [u]) ++ rest) =
          processMatches (findMatchingConstraints inv rest) inv
            ((pre ++ [u]) ++ rest) from rfl]
        rw [processMatches_eq inv rest (pre ++ [u]) hnd']
        have hstep : combineMapStep inv u = u := by
          unfold combineMapStep
          rw [if_pos hov, if_pos hm]
        simp [hstep]
      · rw [if_neg hm]
        rw [updateFirstEq_append_not_mem u (mergeConstraints u inv) pre rest
          (pre_ne_of_nodup_ids hnd)]
        have heq : pre ++ mergeConstraints u inv :: rest =
            (pre ++ [mergeConstraints u inv]) ++ rest := by simp
        rw [heq]
        have hnd' : (((pre ++ [mergeConstraints u inv]) ++ rest).map
            (fun x => x.id)).Nodup := by
          have hmap : ((pre ++ [mergeConstraints u inv]) ++ rest).map
              (fun x => x.id) = (pre ++ u :: rest).map (fun x => x.id) := by
            simp [mergeConstraints_id]
          rw [hmap]
          exact hnd
        rw [show processMatches (List.filter
            (fun x => constraintsOverlap x.expression inv.expression) rest)
            inv ((pre ++ [mergeConstraints u inv]) ++ rest) =
          processMatches (findMatchingConstraints inv rest) inv
            ((pre ++ [mergeConstraints u inv]) ++ rest) from rfl]
        rw [processMatches_eq inv rest (pre ++ [mergeConstraints u inv]) hnd']
        have hstep : combineMapStep inv u = mergeConstraints u inv := by
          unfold combineMapStep
          rw [if_pos hov, if_neg hm]
        simp [hstep]
    · rw [if_neg (by simpa using hov)]
      have heq : pre ++ u :: rest = (pre ++ [u]) ++ rest := by simp
      rw [heq]
      have hnd' : (((pre ++ [u]) ++ rest).map (fun x => x.id)).Nodup := by
        rw [← heq]; exact hnd
      rw [show processMatches (List.filter
          (fun x => constraintsOverlap x.expression inv.expression) rest)
          inv ((pre ++ [u]) ++ rest) =
        processMatches (findMatchingConstraints inv rest) inv
          ((pre ++ [u]) ++ rest) from rfl]
      rw [processMatches_eq inv rest (pre ++ [u]) hnd']
      have hstep : combineMapStep inv u = u := by
        unfold combineMapStep
        rw [if_neg hov]
      simp [hstep]

theorem mergeConstraints_proj (inv : DynamicInvariant)
    {u1 u2 : UnifiedConstraint} (he : u1.expression = u2.expression)
    (ho : u1.originating_ids = u2.originating_ids) :
    ucProj (mergeConstraints u1 inv) = ucProj (mergeConstraints u2 inv) := by
  unfold mergeConstraints ucProj
  rw [← he]
  by_cases hm : selectStricter u1.expression inv.expression = u1.expression
  · rw [if_pos hm, if_pos hm]
    rw [he, ho]
  · rw [if_neg hm, if_neg hm]
    simp [ho]

theorem combineMapStep_proj (inv : DynamicInvariant)
    {u1 u2 : UnifiedConstraint} (h : ucProj u1 = ucProj u2) :
    ucProj (combineMapStep inv u1) = ucProj (combineMapStep inv u2) := by
  have he : u1.expression = u2.expression := congrArg Prod.fst h
  have ho : u1.originating_ids = u2.originating_ids := congrArg Prod.snd h
  have hmiff : (mergeConstraints u1 inv = u1) ↔ (mergeConstraints u2 inv = u2) := by
    rw [mergeConstraints_eq_self_iff, mergeConstraints_eq_self_iff, he]
  have hovEq : constraintsOverlap u2.expression inv.expression =
      constraintsOverlap u1.expression inv.expression := by rw [he]
  unfold combineMapStep
  rw [hovEq]
  by_cases hov : constraintsOverlap u1.expression inv.expression
  · rw [if_pos hov, if_pos hov]
    by_cases hm : mergeConstraints u1 inv = u1
    · rw [if_pos hm, if_pos (hmiff.mp hm)]
      exact h
    · rw [if_neg hm, if_neg (fun hc => hm (hmiff.mpr hc))]
      exact mergeConstraints_proj inv he ho
  · rw [if_neg hov, if_neg hov]
    exact h

theorem map_proj_map_step (inv : DynamicInvariant) :
    ∀ (l1 l2 : List UnifiedConstraint), l1.map ucProj = l2.map ucProj →
      (l1.map (combineMapStep inv)).map ucProj =
        (l2.map (combineMapStep inv)).map ucProj
  | [], [], _ => rfl
  | [], _ :: _, h => by simp at h
  | _ :: _, [], h => by simp at h
  | a :: l1, b :: l2, h => by
    simp only [List.map_cons, List.cons.injEq] at h ⊢
    exact ⟨combineMapStep_proj inv h.1, map_proj_map_step inv l1 l2 h.2⟩

theorem findMatching_empty_iff (inv : DynamicInvariant) :
    ∀ (l1 l2 : List UnifiedConstraint), l1.map ucProj = l2.map ucProj →
      (findMatchingConstraints inv l1 = [] ↔ findMatchingConstraints inv l2 = [])
  | [], [], _ => Iff.rfl
  | [], _ :: _, h => by simp at h
  | _ :: _, [], h => by simp at h
  | a :: l1, b :: l2, h => by
    simp only [List.map_cons, List.cons.injEq] at h
    have he : a.expression = b.expression := congrArg Prod.fst h.1
    unfold findMatchingConstraints
    rw [List.filter_cons, List.filter_cons, ← he]
    by_cases hov : constraintsOverlap a.expression inv.expression
    · rw [if_pos (by simpa using hov), if_pos (by simpa using hov)]
      simp
    · rw [if_neg (by simpa using hov), if_neg (by simpa using hov)]
      exact findMatching_empty_iff inv l1 l2 h.2

theorem map_id_map_step (inv : DynamicInvariant) (l : List UnifiedConstraint) :
    (l.map (combineMapStep inv)).map (fun x => x.id) =
      l.map (fun x => x.id) := by
  rw [List.map_map]
  apply List.map_congr_left
  intro u _
  exact combineMapStep_id inv u

theorem ids_append_fresh (gen : Nat → String) (hinj : Function.Injective gen)
    {l : List UnifiedConstraint} {c : Nat}
    (hnd : (l.map (fun x => x.id)).Nodup)
    (hbd : ∀ x ∈ l.map (fun x => x.id), ∃ j, j < c ∧ x = gen j)
    (e : String) (o : List String) :
    ((l ++ [({ id := gen c, expression := e, originating_ids := o } :
        UnifiedConstraint)]).map (fun x => x.id)).Nodup ∧
      ∀ x ∈ (l ++ [({ id := gen c, expression := e, originating_ids := o } :
          UnifiedConstraint)]).map (fun x => x.id),
        ∃ j, j < c + 1 ∧ x = gen j := by
  constructor
  · rw [List.map_append]
    rw [List.nodup_append]
    refine ⟨hnd, by simp, ?_⟩
    intro x hx hx'
    simp only [List.map_cons, List.map_nil, List.mem_singleton] at hx'
    rcases hbd x hx with ⟨j, hj, hxe⟩
    rw [hx'] at hxe
    exact absurd (hinj hxe.symm) (Nat.ne_of_lt hj)
  · intro x hx
    rw [List.map_append] at hx
    rcases List.mem_append.mp hx with hx' | hx'
    · rcases hbd x hx' with ⟨j, hj, hxe⟩
      exact ⟨j, Nat.lt_succ_of_lt hj, hxe⟩
    · simp only [List.map_cons, List.map_nil, List.mem_singleton] at hx'
      exact ⟨c, Nat.lt_succ_self _, hx'⟩

theorem combineStep_empty (gen : Nat → String) (st : CombineState)
    (inv : DynamicInvariant)
    (h : findMatchingConstraints inv st.constraints = []) :
    combineStep gen st inv =
      { constraints := st.constraints ++
          [({ id := gen st.counter, expression := inv.expression,
              originating_ids := [inv.id] } : UnifiedConstraint)],
        counter := st.counter + 1 } := by
  unfold combineStep
  rw [h]
  simp

theorem combineStep_nonempty (gen : Nat → String) (st : CombineState)
    (inv : DynamicInvariant)
    (h : ¬ findMatchingConstraints inv st.constraints = []) :
    combineStep gen st inv =
      { st with constraints := (processMatches
          (findMatchingConstraints inv st.constraints) inv st.constraints) } := by
  unfold combineStep
  rw [if_pos h]

theorem processMatches_self_eq (inv : DynamicInvariant)
    (cs : List UnifiedConstraint) (hnd : (cs.map (fun x => x.id)).Nodup) :
    processMatches (findMatchingConstraints inv cs) inv cs =
      cs.map (combineMapStep inv) := by
  have h := processMatches_eq inv cs [] (by simpa using hnd)
  simpa using h

theorem staticSeed_ids (gen : Nat → String) (hinj : Function.Injective gen)
    (st : CombineState) (c : StaticConstraint) (h : IdsSpec gen st) :
    IdsSpec gen (staticSeed gen st c) := by
  unfold staticSeed IdsSpec
  exact ids_append_fresh gen hinj h.1 h.2 c.expression [c.id]

theorem staticsFold_ids (gen : Nat → String) (hinj : Function.Injective gen) :
    ∀ (statics : List StaticConstraint) (st : CombineState),
      IdsSpec gen st → IdsSpec gen (statics.foldl (staticSeed gen) st)
  | [], _, h => h
  | c :: rest, st, h => by
    rw [List.foldl_cons]
    exact staticsFold_ids gen hinj rest _ (staticSeed_ids gen hinj st c h)

theorem combineStep_ids (gen : Nat → String) (hinj : Function.Injective gen)
    (st : CombineState) (inv : DynamicInvariant) (h : IdsSpec gen st) :
    IdsSpec gen (combineStep gen st inv) := by
  by_cases hm : findMatchingConstraints inv st.constraints = []
  · rw [combineStep_empty gen st inv hm]
    exact ids_append_fresh gen hinj h.1 h.2 inv.expression [inv.id]
  · rw [combineStep_nonempty gen st inv hm]
    unfold IdsSpec
    rw [processMatches_self_eq inv st.constraints h.1, map_id_map_step]
    exact h

theorem staticsFold_proj (gen1 gen2 : Nat → String) :
    ∀ (statics : List StaticConstraint) (stA stB : CombineState),
      stA.constraints.map ucProj = stB.constraints.map ucProj →
      (statics.foldl (staticSeed gen1) stA).constraints.map ucProj =
        (statics.foldl (staticSeed gen2) stB).constraints.map ucProj
  | [], _, _, h => h
  | c :: rest, stA, stB, h => by
    rw [List.foldl_cons, List.foldl_cons]
    apply staticsFold_proj gen1 gen2 rest
    unfold staticSeed
    simp [List.map_append, h, ucProj]

theorem dynFold_proj (gen1 gen2 : Nat → String)
    (h1 : Function.Injective gen1) (h2 : Function.Injective gen2) :
    ∀ (dynamics : List DynamicInvariant) (stA stB : CombineState),
      stA.constraints.map ucProj = stB.constraints.map ucProj →
      IdsSpec gen1 stA → IdsSpec gen2 stB →
      (dynamics.foldl (combineStep gen1) stA).constraints.map ucProj =
        (dynamics.foldl (combineStep gen2) stB).constraints.map ucProj
  | [], _, _, h, _, _ => h
  | inv :: rest, stA, stB, h, hA, hB => by
    rw [List.foldl_cons, List.foldl_cons]
    by_cases hm : findMatchingConstraints inv stA.constraints = []
    · have hmB : findMatchingConstraints inv stB.constraints = [] :=
        (findMatching_empty_iff inv _ _ h).mp hm
      rw [combineStep_empty gen1 stA inv hm, combineStep_empty gen2 stB inv hmB]
      apply dynFold_proj gen1 gen2 h1 h2 rest
      · simp [List.map_append, h, ucProj]
      · exact ids_append_fresh gen1 h1 hA.1 hA.2 inv.expression [inv.id]
      · exact ids_append_fresh gen2 h2 hB.1 hB.2 inv.expression [inv.id]
    · have hmB : ¬ findMatchingConstraints inv stB.constraints = [] :=
        fun hc => hm ((findMatching_empty_iff inv _ _ h).mpr hc)
      rw [combineStep_nonempty gen1 stA inv hm,
        combineStep_nonempty gen2 stB inv hmB]
      apply dynFold_proj gen1 gen2 h1 h2 rest
      · show (processMatches (findMatchingConstraints inv stA.constraints) inv
            stA.constraints).map ucProj = _
        rw [processMatches_self_eq inv stA.constraints hA.1,
          processMatches_self_eq inv stB.constraints hB.1]
        exact map_proj_map_step inv _ _ h
      · unfold IdsSpec
        show ((processMatches (findMatchingConstraints inv stA.constraints) inv
            stA.constraints).map (fun x => x.id)).Nodup ∧ _
        rw [processMatches_self_eq inv stA.constraints hA.1, map_id_map_step]
        exact hA
      · unfold IdsSpec
        show ((processMatches (findMatchingConstraints inv stB.constraints) inv
            stB.constraints).map (fun x => x.id)).Nodup ∧ _
        rw [processMatches_self_eq inv stB.constraints hB.1, map_id_map_step]
        exact hB

/-- C8: the observable output of `combine_constraints` — the expression and
the provenance list of every unified constraint, position by position — does
not depend on the generated uuids: two runs on the same static and dynamic
inputs, with different (injective) id streams, agree on all expressions and
provenance contents. -/
theorem combiner_gen_independent (gen1 gen2 : Nat → String)
    (staticConstraints : List StaticConstraint)
    (dynamicInvariants : List DynamicInvariant)
    (h1 : Function.Injective gen1) (h2 : Function.Injective gen2) :
    (combineConstraints gen1 staticConstraints dynamicInvariants).map
        (fun u => (u.expression, u.originating_ids)) =
      (combineConstraints gen2 staticConstraints dynamicInvariants).map
        (fun u => (u.expression, u.originating_ids)) := by
  show (combineConstraints gen1 staticConstraints dynamicInvariants).map
      ucProj =
    (combineConstraints gen2 staticConstraints dynamicInvariants).map ucProj
  unfold combineConstraints
  exact dynFold_proj gen1 gen2 h1 h2 dynamicInvariants _ _
    (staticsFold_proj gen1 gen2 staticConstraints ⟨[], 0⟩ ⟨[], 0⟩ rfl)
    (staticsFold_ids gen1 h1 staticConstraints ⟨[], 0⟩ (by simp [IdsSpec]))
    (staticsFold_ids gen2 h2 staticConstraints ⟨[], 0⟩ (by simp [IdsSpec]))

/-- Witness for C8: two runs with the distinct streams `genW` and `genV`
on a concrete static/dynamic input agree on expressions and provenance. -/
theorem combiner_gen_independent_witness :
    (combineConstraints genW
        [⟨"s1", ConstraintSource.response_property, "/flights",
          HTTPMethod.GET, "response.amount > 100", none⟩]
        [⟨"d1", ["response.amount"], "response.amount > 50"⟩,
         ⟨"d2", ["response.total"], "response.total >= 0"⟩]).map
      (fun u => (u.expression, u.originating_ids)) =
    (combineConstraints genV
        [⟨"s1", ConstraintSource.response_property, "/flights",
          HTTPMethod.GET, "response.amount > 100", none⟩]
        [⟨"d1", ["response.amount"], "response.amount > 50"⟩,
         ⟨"d2", ["response.total"], "response.total >= 0"⟩]).map
      (fun u => (u.expression, u.originating_ids)) :=
  combiner_gen_independent genW genV
    [⟨"s1", ConstraintSource.response_property, "/flights",
      HTTPMethod.GET, "response.amount > 100", none⟩]
    [⟨"d1", ["response.amount"], "response.amount > 50"⟩,
     ⟨"d2", ["response.total"], "response.total >= 0"⟩]
    genW_injective genV_injective

/-! ## Strictness of unified constraints (C3) -/

theorem exprSat_of_search {e : String} {op : IneqOp} {n : Nat}
    (hs : searchIneq e.toList = some (op, n)) (v : Int) :
    exprSat e v = op.satB n v := by
  unfold exprSat
  rw [hs]

theorem exprRelaxSat_of_search {e : String} {op : IneqOp} {n : Nat}
    (hs : searchIneq e.toList = some (op, n)) (v : Int) :
    exprRelaxSat e v = op.relaxB n v := by
  unfold exprRelaxSat
  rw [hs]

theorem exprRelaxSat_of_none {e : String}
    (hs : searchIneq e.toList = none) (v : Int) :
    exprRelaxSat e v = true := by
  unfold exprRelaxSat
  rw [hs]

theorem selectStricter_ne_spec (e1 e2 : String)
    (hne : selectStricter e1 e2 ≠ e1) :
    ∃ op1 v1 op2 v2, searchIneq e1.toList = some (op1, v1) ∧
      searchIneq e2.toList = some (op2, v2) ∧ selectStricter e1 e2 = e2 ∧
      ((op1.hasGt = true ∧ op2.hasGt = true ∧ v1 ≤ v2) ∨
        (op1.hasLt = true ∧ op2.hasLt = true ∧ v2 ≤ v1)) := by
  rcases hs1 : searchIneq e1.toList with _ | ⟨op1, v1⟩
  · exfalso
    apply hne
    unfold selectStricter
    rw [hs1]
  · rcases hs2 : searchIneq e2.toList with _ | ⟨op2, v2⟩
    · exfalso
      apply hne
      unfold selectStricter
      rw [hs1, hs2]
    · have hsel : selectStricter e1 e2 =
          if (op1.hasGt && op2.hasGt) = true then
            (if v1 > v2 then e1 else e2)
          else if (op1.hasLt && op2.hasLt) = true then
            (if v1 < v2 then e1 else e2)
          else e1 := by
        unfold selectStricter
        rw [hs1, hs2]
      by_cases hgt : (op1.hasGt && op2.hasGt) = true
      · by_cases hb : v1 > v2
        · exfalso
          apply hne
          rw [hsel, if_pos hgt, if_pos hb]
        · refine ⟨op1, v1, op2, v2, rfl, rfl,
            by rw [hsel, if_pos hgt, if_neg hb], Or.inl ?_⟩
          have hand := Bool.and_eq_true_iff.mp hgt
          exact ⟨hand.1, hand.2, Nat.le_of_not_lt hb⟩
      · by_cases hlt : (op1.hasLt && op2.hasLt) = true
        · by_cases hb : v1 < v2
          · exfalso
            apply hne
            rw [hsel, if_neg hgt, if_pos hlt, if_pos hb]
          · refine ⟨op1, v1, op2, v2, rfl, rfl,
              by rw [hsel, if_neg hgt, if_pos hlt, if_neg hb], Or.inr ?_⟩
            have hand := Bool.and_eq_true_iff.mp hlt
            exact ⟨hand.1, hand.2, Nat.le_of_not_lt hb⟩
        · exfalso
          apply hne
          rw [hsel, if_neg hgt, if_neg hlt]

theorem selectStricter_relax (e1 e2 : String)
    (hne : selectStricter e1 e2 ≠ e1) :
    ∀ v : Int, exprRelaxSat (selectStricter e1 e2) v = true →
      exprRelaxSat e1 v = true := by
  intro v hv
  obtain ⟨op1, v1, op2, v2, hs1, hs2, he2, hcond⟩ :=
    selectStricter_ne_spec e1 e2 hne
  rw [he2, exprRelaxSat_of_search hs2 v] at hv
  rw [exprRelaxSat_of_search hs1 v]
  rcases hcond with ⟨hg1, hg2, hle⟩ | ⟨hl1, hl2, hle⟩
  · rcases op1 <;> rcases op2 <;> simp [IneqOp.hasGt] at hg1 hg2 <;>
      simp [IneqOp.relaxB] at hv ⊢ <;> omega
  · rcases op1 <;> rcases op2 <;> simp [IneqOp.hasLt] at hl1 hl2 <;>
      simp [IneqOp.relaxB] at hv ⊢ <;> omega

theorem exprSat_imp_relax (e : String) (v : Int) (h : exprSat e v = true) :
    exprRelaxSat e v = true := by
  rcases hs : searchIneq e.toList with _ | ⟨op, n⟩
  · exact exprRelaxSat_of_none hs v
  · rw [exprSat_of_search hs v] at h
    rw [exprRelaxSat_of_search hs v]
    rcases op <;> simp [IneqOp.satB] at h <;> simp [IneqOp.relaxB] <;> omega

theorem seed_relax (statics : List StaticConstraint)
    (dynamics : List DynamicInvariant)
    (hids : (statics.map (fun c => c.id) ++
      dynamics.map (fun d => d.id)).Nodup)
    (c : StaticConstraint) (hc : c ∈ statics) (i : String) :
    RelaxSubsumes statics dynamics ⟨i, c.expression, [c.id]⟩ := by
  intro v hv
  constructor
  · intro s hs hsid
    have hseq : s.id = c.id := by simpa using hsid
    have hsc : s = c :=
      List.inj_on_of_nodup_map hids.of_append_left hs hc hseq
    rw [hsc]
    exact hv
  · intro d hd hdid
    have hdeq : d.id = c.id := by simpa using hdid
    exfalso
    exact List.disjoint_of_nodup_append hids
      (List.mem_map_of_mem _ hc)
      (hdeq ▸ List.mem_map_of_mem (fun d => d.id) hd)

theorem newInv_relax (statics : List StaticConstraint)
    (dynamics : List DynamicInvariant)
    (hids : (statics.map (fun c => c.id) ++
      dynamics.map (fun d => d.id)).Nodup)
    (inv : DynamicInvariant) (hinv : inv ∈ dynamics) (i : String) :
    RelaxSubsumes statics dynamics ⟨i, inv.expression, [inv.id]⟩ := by
  intro v hv
  constructor
  · intro s hs hsid
    have hseq : s.id = inv.id := by simpa using hsid
    exfalso
    exact List.disjoint_of_nodup_append hids
      (hseq ▸ List.mem_map_of_mem (fun c => c.id) hs)
      (List.mem_map_of_mem _ hinv)
  · intro d hd hdid
    have hdeq : d.id = inv.id := by simpa using hdid
    have hdi : d = inv :=
      List.inj_on_of_nodup_map hids.of_append_right hd hinv hdeq
    rw [hdi]
    exact hv

theorem mapStep_relax (statics : List StaticConstraint)
    (dynamics : List DynamicInvariant)
    (hids : (statics.map (fun c => c.id) ++
      dynamics.map (fun d => d.id)).Nodup)
    (inv : DynamicInvariant) (hinv : inv ∈ dynamics) (u : UnifiedConstraint)
    (hu : RelaxSubsumes statics dynamics u) :
    RelaxSubsumes statics dynamics (combineMapStep inv u) := by
  unfold combineMapStep
  by_cases hov : constraintsOverlap u.expression inv.expression
  · rw [if_pos hov]
    by_cases hm : mergeConstraints u inv = u
    · rw [if_pos hm]
      exact hu
    · rw [if_neg hm]
      have hne : selectStricter u.expression inv.expression ≠ u.expression :=
        fun hc => hm ((mergeConstraints_eq_self_iff u inv).mpr hc)
      obtain ⟨_, _, _, _, _, _, hsel2, _⟩ :=
        selectStricter_ne_spec u.expression inv.expression hne
      rw [show mergeConstraints u inv =
          ⟨u.id, selectStricter u.expression inv.expression,
            u.originating_ids ++ [inv.id]⟩ from by
        unfold mergeConstraints
        rw [if_neg hne]]
      intro v hv
      have hvu : exprRelaxSat u.expression v = true :=
        selectStricter_relax _ _ hne v hv
      have hIH := hu v hvu
      constructor
      · intro s hs hsid
        rcases List.mem_append.mp hsid with h' | h'
        · exact hIH.1 s hs h'
        · have hseq : s.id = inv.id := by simpa using h'
          exfalso
          exact List.disjoint_of_nodup_append hids
            (hseq ▸ List.mem_map_of_mem (fun c => c.id) hs)
            (List.mem_map_of_mem _ hinv)
      · intro d hd hdid
        rcases List.mem_append.mp hdid with h' | h'
        · exact hIH.2 d hd h'
        · have hdeq : d.id = inv.id := by simpa using h'
          have hdi : d = inv :=
            List.inj_on_of_nodup_map hids.of_append_right hd hinv hdeq
          rw [hdi, ← hsel2]
          exact hv
  · rw [if_neg hov]
    exact hu

theorem staticsFold_relax (gen : Nat → String)
    (statics : List StaticConstraint) (dynamics : List DynamicInvariant)
    (hids : (statics.map (fun c => c.id) ++
      dynamics.map (fun d => d.id)).Nodup) :
    ∀ (l : List StaticConstraint), (∀ c ∈ l, c ∈ statics) →
      ∀ (st : CombineState),
        (∀ u ∈ st.constraints, RelaxSubsumes statics dynamics u) →
        ∀ u ∈ (l.foldl (staticSeed gen) st).constraints,
          RelaxSubsumes statics dynamics u
  | [], _, st, hst, u, hu => hst u hu
  | c :: rest, hl, st, hst, u, hu => by
    rw [List.foldl_cons] at hu
    refine staticsFold_relax gen statics dynamics hids rest
      (fun c' h' => hl c' (by simp [h'])) _ ?_ u hu
    intro u' hu'
    unfold staticSeed at hu'
    rcases List.mem_append.mp hu' with h' | h'
    · exact hst u' h'
    · rw [List.mem_singleton.mp h']
      exact seed_relax statics dynamics hids c (hl c (by simp)) _

theorem dynFold_relax (gen : Nat → String) (hinj : Function.Injective gen)
    (statics : List StaticConstraint) (dynamics : List DynamicInvariant)
    (hids : (statics.map (fun c => c.id) ++
      dynamics.map (fun d => d.id)).Nodup) :
    ∀ (l : List DynamicInvariant), (∀ d ∈ l, d ∈ dynamics) →
      ∀ (st : CombineState), IdsSpec gen st →
        (∀ u ∈ st.constraints, RelaxSubsumes statics dynamics u) →
        ∀ u ∈ (l.foldl (combineStep gen) st).constraints,
          RelaxSubsumes statics dynamics u
  | [], _, st, _, hst, u, hu => hst u hu
  | inv :: rest, hl, st, hsp, hst, u, hu => by
    rw [List.foldl_cons] at hu
    refine dynFold_relax gen hinj statics dynamics hids rest
      (fun d h => hl d (by simp [h])) _
      (combineStep_ids gen hinj st inv hsp) ?_ u hu
    intro u' hu'
    by_cases hm : findMatchingConstraints inv st.constraints = []
    · rw [combineStep_empty gen st inv hm] at hu'
      rcases List.mem_append.mp hu' with h' | h'
      · exact hst u' h'
      · rw [List.mem_singleton.mp h']
        exact newInv_relax statics dynamics hids inv (hl inv (by simp)) _
    · rw [combineStep_nonempty gen st inv hm] at hu'
      have hu'' : u' ∈ (processMatches
          (findMatchingConstraints inv st.constraints) inv
          st.constraints) := hu'
      rw [processMatches_self_eq inv st.constraints hsp.1] at hu''
      rcases List.mem_map.mp hu'' with ⟨u0, hu0, he⟩
      rw [← he]
      exact mapStep_relax statics dynamics hids inv (hl inv (by simp)) u0
        (hst u0 hu0)

/-- Counterexample to C3 as stated: merging the static `response.amount >
100` (id `s1`) with the dynamic `response.amount >= 100` (id `d1`) replaces
the expression by `response.amount >= 100` with both ids in the provenance;
the value 100 satisfies the unified expression but *not* the subsumed static
expression, so the unified constraint is not at least as strict. -/
theorem combiner_strictness_cex :
    (combineConstraints genW
        [⟨"s1", ConstraintSource.response_property, "/flights",
          HTTPMethod.GET, "response.amount > 100", none⟩]
        [⟨"d1", ["response.amount"], "response.amount >= 100"⟩]).map
      (fun u => (u.expression, u.originating_ids)) =
      [("response.amount >= 100", ["s1", "d1"])] ∧
    exprSat "response.amount >= 100" 100 = true ∧
    exprSat "response.amount > 100" 100 = false := by
  refine ⟨by decide, by decide, by decide⟩

/-- C3 (amended): every unified constraint the combiner produces is at least
as strict as the *non-strict relaxation* of every constraint or invariant in
its provenance: any integer value satisfying the unified expression satisfies
each subsumed expression with its bound weakened to non-strict (`>` to `>=`,
`<` to `<=`).  Full strictness fails only at the bound itself, when a strict
bound is replaced by an equal non-strict one. -/
theorem combiner_provenance_relaxed (gen : Nat → String)
    (staticConstraints : List StaticConstraint)
    (dynamicInvariants : List DynamicInvariant)
    (hinj : Function.Injective gen)
    (hids : (staticConstraints.map (fun c => c.id) ++
      dynamicInvariants.map (fun d => d.id)).Nodup) :
    ∀ u ∈ combineConstraints gen staticConstraints dynamicInvariants,
      ∀ v : Int, exprSat u.expression v = true →
        (∀ s ∈ staticConstraints, s.id ∈ u.originating_ids →
          exprRelaxSat s.expression v = true) ∧
        (∀ d ∈ dynamicInvariants, d.id ∈ u.originating_ids →
          exprRelaxSat d.expression v = true) := by
  intro u hu v hv
  have hrel : RelaxSubsumes staticConstraints dynamicInvariants u := by
    unfold combineConstraints at hu
    exact dynFold_relax gen hinj staticConstraints dynamicInvariants hids
      dynamicInvariants (fun d hd => hd) _
      (staticsFold_ids gen hinj staticConstraints ⟨[], 0⟩ (by simp [IdsSpec]))
      (staticsFold_relax gen staticConstraints dynamicInvariants hids
        staticConstraints (fun c hc => hc) ⟨[], 0⟩
        (by intro u hu; simp at hu))
      u hu
  exact hrel v (exprSat_imp_relax _ _ hv)

/-- Witness for the amended C3 on a concrete run: the unified constraint
produced from `s1`/`d1` is satisfied at 150, and via the theorem the value
150 satisfies the relaxation of the subsumed static expression. -/
theorem combiner_provenance_relaxed_witness :
    (([(⟨"s1", ConstraintSource.response_property, "/flights",
        HTTPMethod.GET, "response.amount > 100", none⟩ :
          StaticConstraint)].map (fun c => c.id) ++
      [(⟨"d1", ["response.amount"],
        "response.amount >= 100"⟩ : DynamicInvariant)].map
          (fun d => d.id)).Nodup ∧
      exprSat "response.amount >= 100" 150 = true) ∧
      exprRelaxSat "response.amount > 100" 150 = true := by
  refine ⟨⟨by decide, by decide⟩, ?_⟩
  have h := combiner_provenance_relaxed genW
    [⟨"s1", ConstraintSource.response_property, "/flights",
      HTTPMethod.GET, "response.amount > 100", none⟩]
    [⟨"d1", ["response.amount"], "response.amount >= 100"⟩]
    genW_injective (by decide)
    ⟨"", "response.amount >= 100", ["s1", "d1"]⟩ (by decide) 150 (by decide)
  exact h.1 ⟨"s1", ConstraintSource.response_property, "/flights",
    HTTPMethod.GET, "response.amount > 100", none⟩ (by decide) (by decide)
